import Mathlib

/-!
Verification development for the klein PGA kernel (rotor / translator / motor
exponential-logarithm-square-root layer and sandwich application).

The embedding is a shallow model over the real numbers: each entity is a
fixed-width pack of real coordinates mirroring the library's SSE lane layout,
and each operation is translated from `src/public/klein/rotor.hpp` where that
file defines it.  The product kernels, the translator and motor types, and the
exp/log/sqrt module are part of this repository but are not under `src/`
(only their tests and callers are), so those definitions are modelled from the
spec, as marked in their doc comments.  Hardware approximation instructions
(`rsqrtps`, `rcpps`) are modelled as abstract functions constrained by their
documented relative-error bound.
-/

noncomputable section

/-- Rotation group element.  Lane layout from `src/public/klein/rotor.hpp`:
lane 0 is the scalar, lanes 1..3 are the coefficients of e23, e31, e12. -/
structure rotor where
  s : ℝ
  b23 : ℝ
  b31 : ℝ
  b12 : ℝ

/-- Modelled from the spec: the `branch` entity (pure rotational bivector,
lanes `(0, e23, e31, e12)`, §3) is not under `src/`. -/
structure branch where
  b23 : ℝ
  b31 : ℝ
  b12 : ℝ

/-- Modelled from the spec: the `translator` entity (lanes `(1, e01, e02,
e03)`, scalar part fixed at 1, §3) is not under `src/`. -/
structure translator where
  t01 : ℝ
  t02 : ℝ
  t03 : ℝ

/-- Modelled from the spec: the 8-lane `motor` entity (§3, §4.4) is not under
`src/`.  Coordinates: scalar, e23, e31, e12 in the first pack and e0123, e01,
e02, e03 in the second. -/
structure motor where
  s : ℝ
  e23 : ℝ
  e31 : ℝ
  e12 : ℝ
  p : ℝ
  e01 : ℝ
  e02 : ℝ
  e03 : ℝ

/-- Modelled from the spec: the `line` entity (screw generator, Euclidean
sub-pack `(e23, e31, e12)` and ideal sub-pack `(e01, e02, e03)`, §3) is not
under `src/`. -/
structure line where
  u1 : ℝ
  u2 : ℝ
  u3 : ℝ
  v1 : ℝ
  v2 : ℝ
  v3 : ℝ

/-- Modelled from the spec: the `point` entity, lanes `(w, x, y, z)` (§3). -/
structure point where
  w : ℝ
  x : ℝ
  y : ℝ
  z : ℝ

/-- Modelled from the spec: the `plane` entity, lanes `(d, a, b, c)` (§3). -/
structure plane where
  d : ℝ
  a : ℝ
  b : ℝ
  c : ℝ

/-- Modelled from the spec: the `direction` entity; its homogeneous weight is
always 0 (§3), so only the three Euclidean lanes are carried. -/
structure direction where
  x : ℝ
  y : ℝ
  z : ℝ

/-- Identity rotor. -/
def rotorOne : rotor := ⟨1, 0, 0, 0⟩

/-- Identity motor. -/
def motorOne : motor := ⟨1, 0, 0, 0, 0, 0, 0, 0⟩

/-- Reversion operator on rotors, from `rotor.hpp` lines 386-391: the sign
bits of lanes 1..3 (the bivector lanes) are flipped by an xor, lane 0 is kept. -/
def revR (r : rotor) : rotor := ⟨r.s, -r.b23, -r.b31, -r.b12⟩

/-- Modelled from the spec: motor reversion (`motor.hpp` is not under `src/`);
reversion negates the grade-2 part only (§4.2, §4.4), i.e. lanes e23, e31,
e12, e01, e02, e03; the scalar and e0123 lanes are kept. -/
def revM (m : motor) : motor :=
  ⟨m.s, -m.e23, -m.e31, -m.e12, m.p, -m.e01, -m.e02, -m.e03⟩

/-- Modelled from the spec: the rotor geometric product (`gp11` kernel, §4.2
"composition via the geometric product", kernel file not under `src/`).  In
the basis 1, e23, e31, e12 the product is the quaternion-like product with
eI*eI = -1 and e23*e31 = -e12 (cyclically). -/
def gpRR (a b : rotor) : rotor :=
  ⟨a.s * b.s - a.b23 * b.b23 - a.b31 * b.b31 - a.b12 * b.b12,
   a.s * b.b23 + b.s * a.b23 - (a.b31 * b.b12 - a.b12 * b.b31),
   a.s * b.b31 + b.s * a.b31 - (a.b12 * b.b23 - a.b23 * b.b12),
   a.s * b.b12 + b.s * a.b12 - (a.b23 * b.b31 - a.b31 * b.b23)⟩

/-- Modelled from the spec: the motor geometric product (`gp_mm` kernel, §4.4,
kernel file not under `src/`).  The even subalgebra splits as q1 + e0123*q2;
e0123 squares to zero and commutes, e23*e01 = e0123, e23*e02 = -e03,
e23*e03 = e02 (cyclically), and e0123*e23 = -e01 (cyclically). -/
def gpMM (a b : motor) : motor :=
  ⟨a.s * b.s - a.e23 * b.e23 - a.e31 * b.e31 - a.e12 * b.e12,
   a.s * b.e23 + b.s * a.e23 - (a.e31 * b.e12 - a.e12 * b.e31),
   a.s * b.e31 + b.s * a.e31 - (a.e12 * b.e23 - a.e23 * b.e12),
   a.s * b.e12 + b.s * a.e12 - (a.e23 * b.e31 - a.e31 * b.e23),
   a.s * b.p + a.p * b.s + a.e23 * b.e01 + a.e31 * b.e02 + a.e12 * b.e03
     + b.e23 * a.e01 + b.e31 * a.e02 + b.e12 * a.e03,
   a.s * b.e01 + b.s * a.e01 - a.p * b.e23 - b.p * a.e23
     - (a.e31 * b.e03 - a.e12 * b.e02) + (b.e31 * a.e03 - b.e12 * a.e02),
   a.s * b.e02 + b.s * a.e02 - a.p * b.e31 - b.p * a.e31
     - (a.e12 * b.e01 - a.e23 * b.e03) + (b.e12 * a.e01 - b.e23 * a.e03),
   a.s * b.e03 + b.s * a.e03 - a.p * b.e12 - b.p * a.e12
     - (a.e23 * b.e02 - a.e31 * b.e01) + (b.e23 * a.e02 - b.e31 * a.e01)⟩

/-- Embedding of a rotor into the motor pack (ideal lanes zero). -/
def rotorToMotor (r : rotor) : motor := ⟨r.s, r.b23, r.b31, r.b12, 0, 0, 0, 0⟩

/-- Embedding of a translator into the motor pack (scalar lane 1, per §3 the
translator's scalar part is fixed at 1). -/
def transToMotor (t : translator) : motor := ⟨1, 0, 0, 0, 0, t.t01, t.t02, t.t03⟩

/-- Normalization predicate for rotors: `r * ~r = 1` (spec §3 key invariant). -/
def IsNormalizedR (r : rotor) : Prop := gpRR r (revR r) = rotorOne

/-- Normalization predicate for motors: `m * ~m = 1` (spec §3 key invariant). -/
def IsNormalizedM (m : motor) : Prop := gpMM m (revM m) = motorOne

theorem gpRR_rev_self (r : rotor) :
    gpRR r (revR r) =
      ⟨r.s ^ 2 + r.b23 ^ 2 + r.b31 ^ 2 + r.b12 ^ 2, 0, 0, 0⟩ := by
  simp only [gpRR, revR, rotor.mk.injEq]
  refine ⟨by ring, by ring, by ring, by ring⟩

theorem isNormalizedR_iff (r : rotor) :
    IsNormalizedR r ↔ r.s ^ 2 + r.b23 ^ 2 + r.b31 ^ 2 + r.b12 ^ 2 = 1 := by
  rw [IsNormalizedR, gpRR_rev_self, rotorOne]
  constructor
  · intro h
    exact congrArg rotor.s h
  · intro h
    rw [h]

theorem gpMM_rev_self (m : motor) :
    gpMM m (revM m) =
      ⟨m.s ^ 2 + m.e23 ^ 2 + m.e31 ^ 2 + m.e12 ^ 2, 0, 0, 0,
       2 * (m.s * m.p) - 2 * (m.e23 * m.e01 + m.e31 * m.e02 + m.e12 * m.e03),
       0, 0, 0⟩ := by
  simp only [gpMM, revM, motor.mk.injEq]
  refine ⟨by ring, by ring, by ring, by ring, by ring, by ring, by ring, by ring⟩

theorem isNormalizedM_iff (m : motor) :
    IsNormalizedM m ↔
      m.s ^ 2 + m.e23 ^ 2 + m.e31 ^ 2 + m.e12 ^ 2 = 1 ∧
      m.s * m.p = m.e23 * m.e01 + m.e31 * m.e02 + m.e12 * m.e03 := by
  rw [IsNormalizedM, gpMM_rev_self, motorOne]
  constructor
  · intro h
    refine ⟨congrArg motor.s h, ?_⟩
    have hp := congrArg motor.p h
    simp only at hp
    linarith
  · intro h
    obtain ⟨h1, h2⟩ := h
    rw [h1, show 2 * (m.s * m.p) -
      2 * (m.e23 * m.e01 + m.e31 * m.e02 + m.e12 * m.e03) = 0 by linarith]

theorem gpMM_assoc (a b c : motor) : gpMM (gpMM a b) c = gpMM a (gpMM b c) := by
  simp only [gpMM, motor.mk.injEq]
  refine ⟨by ring, by ring, by ring, by ring, by ring, by ring, by ring, by ring⟩

theorem gpMM_one_left (m : motor) : gpMM motorOne m = m := by
  simp only [gpMM, motorOne]
  cases m
  simp only [motor.mk.injEq]
  refine ⟨by ring, by ring, by ring, by ring, by ring, by ring, by ring, by ring⟩

theorem gpMM_one_right (m : motor) : gpMM m motorOne = m := by
  simp only [gpMM, motorOne]
  cases m
  simp only [motor.mk.injEq]
  refine ⟨by ring, by ring, by ring, by ring, by ring, by ring, by ring, by ring⟩

theorem revM_gpMM (a b : motor) : revM (gpMM a b) = gpMM (revM b) (revM a) := by
  simp only [gpMM, revM, motor.mk.injEq]
  refine ⟨by ring, by ring, by ring, by ring, by ring, by ring, by ring, by ring⟩

theorem rev_gp_self_of_normalized {m : motor} (h : IsNormalizedM m) :
    gpMM (revM m) m = motorOne := by
  obtain ⟨h1, h2⟩ := (isNormalizedM_iff m).1 h
  simp only [gpMM, revM, motorOne, motor.mk.injEq]
  refine ⟨by linarith, by ring, by ring, by ring, by linarith, by ring, by ring,
    by ring⟩

theorem isNormalizedM_gpMM {a b : motor} (ha : IsNormalizedM a)
    (hb : IsNormalizedM b) : IsNormalizedM (gpMM a b) := by
  unfold IsNormalizedM
  rw [revM_gpMM, gpMM_assoc, ← gpMM_assoc b (revM b) (revM a), hb,
    gpMM_one_left, ha]

theorem isNormalizedM_rotorToMotor {r : rotor} (h : IsNormalizedR r) :
    IsNormalizedM (rotorToMotor r) := by
  rw [isNormalizedR_iff] at h
  rw [isNormalizedM_iff]
  simp only [rotorToMotor]
  refine ⟨h, by ring⟩

theorem isNormalizedM_transToMotor (t : translator) :
    IsNormalizedM (transToMotor t) := by
  rw [isNormalizedM_iff]
  simp only [transToMotor]
  refine ⟨by ring, by ring⟩

/-- Euclidean magnitude of a three-component pack (used throughout §4.5 as the
bivector magnitude `|b|`, `|u|`). -/
def norm3 (x y z : ℝ) : ℝ := Real.sqrt (x ^ 2 + y ^ 2 + z ^ 2)

theorem norm3_nonneg (x y z : ℝ) : 0 ≤ norm3 x y z := Real.sqrt_nonneg _

theorem norm3_sq (x y z : ℝ) : norm3 x y z ^ 2 = x ^ 2 + y ^ 2 + z ^ 2 :=
  Real.sq_sqrt (by positivity)

theorem norm3_eq_zero {x y z : ℝ} (h : norm3 x y z = 0) :
    x = 0 ∧ y = 0 ∧ z = 0 := by
  have h2 : x ^ 2 + y ^ 2 + z ^ 2 = 0 := by
    have := norm3_sq x y z
    rw [h] at this
    linarith
  refine ⟨by nlinarith, by nlinarith, by nlinarith⟩

theorem norm3_smul {c : ℝ} (hc : 0 ≤ c) (x y z : ℝ) :
    norm3 (c * x) (c * y) (c * z) = c * norm3 x y z := by
  unfold norm3
  rw [show (c * x) ^ 2 + (c * y) ^ 2 + (c * z) ^ 2
      = c ^ 2 * (x ^ 2 + y ^ 2 + z ^ 2) by ring,
    Real.sqrt_mul (sq_nonneg c), Real.sqrt_sq hc]

/-- Modelled from the spec: the principal-value half-angle extractor
`atan2(|u|, s)` used by the logarithm paths (§4.5); the exp/log module is not
under `src/`.  Standard two-argument arctangent. -/
def atan2 (y x : ℝ) : ℝ :=
  if 0 < x then Real.arctan (y / x)
  else if x < 0 then
    (if 0 ≤ y then Real.arctan (y / x) + Real.pi else Real.arctan (y / x) - Real.pi)
  else
    (if 0 < y then Real.pi / 2 else if y < 0 then -(Real.pi / 2) else 0)

theorem atan2_spec {x y : ℝ} (hy : 0 < y) (h1 : x ^ 2 + y ^ 2 = 1) :
    Real.cos (atan2 y x) = x ∧ Real.sin (atan2 y x) = y ∧ 0 < atan2 y x := by
  have hs : Real.sqrt (1 + (y / x) ^ 2) = 1 / |x| ∨ x = 0 := by
    rcases eq_or_ne x 0 with hx | hx
    · exact Or.inr hx
    · left
      rw [show 1 + (y / x) ^ 2 = (x ^ 2 + y ^ 2) / x ^ 2 by field_simp, h1,
        show (1 : ℝ) / x ^ 2 = (1 / |x|) ^ 2 by
          rw [div_pow, one_pow, sq_abs],
        Real.sqrt_sq (by positivity)]
  unfold atan2
  rcases lt_trichotomy x 0 with hx | hx | hx
  · rw [if_neg (by linarith), if_pos hx, if_pos hy.le]
    rcases hs with hs | hs
    · have hax : |x| = -x := abs_of_neg hx
      refine ⟨?_, ?_, ?_⟩
      · rw [Real.cos_add, Real.cos_pi, Real.sin_pi, Real.cos_arctan, hs]
        field_simp [hax]
      · rw [Real.sin_add, Real.cos_pi, Real.sin_pi, Real.sin_arctan, hs]
        rw [hax]
        field_simp [hx.ne]
      · have := Real.neg_pi_div_two_lt_arctan (y / x)
        have hpi := Real.pi_gt_three
        linarith
    · exact absurd hs (ne_of_lt hx)
  · subst hx
    rw [if_neg (lt_irrefl 0), if_neg (lt_irrefl 0), if_pos hy]
    have hy1 : y = 1 := by nlinarith
    refine ⟨Real.cos_pi_div_two, by rw [hy1]; exact Real.sin_pi_div_two, by positivity⟩
  · rw [if_pos hx]
    rcases hs with hs | hs
    · have hax : |x| = x := abs_of_pos hx
      refine ⟨?_, ?_, ?_⟩
      · rw [Real.cos_arctan, hs]
        field_simp [hax]
      · rw [Real.sin_arctan, hs]
        rw [hax]
        field_simp
      · have h0 : Real.arctan 0 < Real.arctan (y / x) :=
          Real.arctan_strictMono (by positivity)
        rwa [Real.arctan_zero] at h0
    · exact absurd hs (ne_of_gt hx)

/-- Modelled from the spec: `exp : branch → rotor` (§4.5); the exp/log module
is not under `src/`.  Scalar part `cos m`, bivector part `sin(m)/m * b`; the
small-magnitude Taylor fallback is modelled at the exact removable singularity
`m = 0` by the series' limiting value (the identity rotor). -/
def expBranch (b : branch) : rotor :=
  if norm3 b.b23 b.b31 b.b12 = 0 then ⟨1, 0, 0, 0⟩
  else
    ⟨Real.cos (norm3 b.b23 b.b31 b.b12),
     Real.sin (norm3 b.b23 b.b31 b.b12) / norm3 b.b23 b.b31 b.b12 * b.b23,
     Real.sin (norm3 b.b23 b.b31 b.b12) / norm3 b.b23 b.b31 b.b12 * b.b31,
     Real.sin (norm3 b.b23 b.b31 b.b12) / norm3 b.b23 b.b31 b.b12 * b.b12⟩

/-- Modelled from the spec: `log : rotor → branch` (§4.5); the exp/log module
is not under `src/`.  If the bivector magnitude `|u|` is below the (here:
exactly zero) threshold, the rotation is the identity and the branch is zero;
otherwise the half-angle is `atan2(|u|, s)` and the branch is `(φ/|u|) u`. -/
def logRotor (r : rotor) : branch :=
  if norm3 r.b23 r.b31 r.b12 = 0 then ⟨0, 0, 0⟩
  else
    ⟨atan2 (norm3 r.b23 r.b31 r.b12) r.s / norm3 r.b23 r.b31 r.b12 * r.b23,
     atan2 (norm3 r.b23 r.b31 r.b12) r.s / norm3 r.b23 r.b31 r.b12 * r.b31,
     atan2 (norm3 r.b23 r.b31 r.b12) r.s / norm3 r.b23 r.b31 r.b12 * r.b12⟩

/-- Modelled from the spec: the closed form of `exp : line → motor` away from
the singular neighborhood (§4.5).  Beyond the rotor's cos/sin terms, the ideal
part receives the screw-pitch mixing correction, a function of θ, sin θ, cos θ
and the commutator of the Euclidean and ideal sub-packs; for a line `(u, v)`
with `θ = |u|` it works out to scalar `cos θ`, Euclidean part `sin(θ)/θ u`,
e0123 part `sin(θ)/θ (u·v)`, and ideal part
`sin(θ)/θ v + (u·v)/θ² (cos θ − sin(θ)/θ) u`. -/
def expLineAux (u1 u2 u3 v1 v2 v3 θ : ℝ) : motor :=
  ⟨Real.cos θ,
   Real.sin θ / θ * u1,
   Real.sin θ / θ * u2,
   Real.sin θ / θ * u3,
   Real.sin θ / θ * (u1 * v1 + u2 * v2 + u3 * v3),
   Real.sin θ / θ * v1
     + (u1 * v1 + u2 * v2 + u3 * v3) / θ ^ 2 * (Real.cos θ - Real.sin θ / θ) * u1,
   Real.sin θ / θ * v2
     + (u1 * v1 + u2 * v2 + u3 * v3) / θ ^ 2 * (Real.cos θ - Real.sin θ / θ) * u2,
   Real.sin θ / θ * v3
     + (u1 * v1 + u2 * v2 + u3 * v3) / θ ^ 2 * (Real.cos θ - Real.sin θ / θ) * u3⟩

/-- Modelled from the spec: `exp : line → motor` (§4.5); the exp/log module is
not under `src/`.  A line with zero Euclidean part exponentiates to a pure
translator (§4.3); the small-angle fallback is modelled at the exact removable
singularity by the series' limiting values. -/
def expLine (l : line) : motor :=
  if norm3 l.u1 l.u2 l.u3 = 0 then ⟨1, 0, 0, 0, 0, l.v1, l.v2, l.v3⟩
  else expLineAux l.u1 l.u2 l.u3 l.v1 l.v2 l.v3 (norm3 l.u1 l.u2 l.u3)

/-- Modelled from the spec: the non-singular branch of `log : motor → line`
(§4.5).  θ and the axis are recovered exactly as in the rotor case
(`φ = atan2(|u|, s)`, Euclidean part `(φ/|u|) u`), then the same mixing
relation is solved for the ideal generator, which gives
`(φ/|u|) v − p/|u|² ((φ/|u|) s − 1) u`. -/
def logMotorAux (s u1 u2 u3 p v1 v2 v3 φ n : ℝ) : line :=
  ⟨φ / n * u1, φ / n * u2, φ / n * u3,
   φ / n * v1 - p / n ^ 2 * (φ / n * s - 1) * u1,
   φ / n * v2 - p / n ^ 2 * (φ / n * s - 1) * u2,
   φ / n * v3 - p / n ^ 2 * (φ / n * s - 1) * u3⟩

/-- Modelled from the spec: `log : motor → line` (§4.5); the exp/log module is
not under `src/`.  Below the (here: exactly zero) small-angle threshold the
rotational generator is zero and the ideal components pass through. -/
def logMotor (m : motor) : line :=
  if norm3 m.e23 m.e31 m.e12 = 0 then ⟨0, 0, 0, m.e01, m.e02, m.e03⟩
  else logMotorAux m.s m.e23 m.e31 m.e12 m.p m.e01 m.e02 m.e03
    (atan2 (norm3 m.e23 m.e31 m.e12) m.s) (norm3 m.e23 m.e31 m.e12)

theorem expLine_logMotorAux (s u1 u2 u3 p v1 v2 v3 n φ : ℝ)
    (hn : n = norm3 u1 u2 u3) (hnpos : 0 < n)
    (hcos : Real.cos φ = s) (hsin : Real.sin φ = n) (hφpos : 0 < φ)
    (h2 : s * p = u1 * v1 + u2 * v2 + u3 * v3) :
    expLine (logMotorAux s u1 u2 u3 p v1 v2 v3 φ n) = ⟨s, u1, u2, u3, p, v1, v2, v3⟩ := by
  have hn0 : n ≠ 0 := hnpos.ne'
  have hφ0 : φ ≠ 0 := hφpos.ne'
  have hn2 : n ^ 2 = u1 ^ 2 + u2 ^ 2 + u3 ^ 2 := by rw [hn]; exact norm3_sq u1 u2 u3
  have hcn : (0 : ℝ) ≤ φ / n := by positivity
  have hu : norm3 (φ / n * u1) (φ / n * u2) (φ / n * u3) = φ := by
    rw [norm3_smul hcn, ← hn, div_mul_cancel₀ _ hn0]
  unfold logMotorAux expLine
  dsimp only
  rw [hu, if_neg hφ0]
  unfold expLineAux
  rw [hcos, hsin]
  have hD : φ / n * u1 * (φ / n * v1 - p / n ^ 2 * (φ / n * s - 1) * u1)
      + φ / n * u2 * (φ / n * v2 - p / n ^ 2 * (φ / n * s - 1) * u2)
      + φ / n * u3 * (φ / n * v3 - p / n ^ 2 * (φ / n * s - 1) * u3)
      = φ / n * p := by
    have e1 : φ / n * u1 * (φ / n * v1 - p / n ^ 2 * (φ / n * s - 1) * u1)
        + φ / n * u2 * (φ / n * v2 - p / n ^ 2 * (φ / n * s - 1) * u2)
        + φ / n * u3 * (φ / n * v3 - p / n ^ 2 * (φ / n * s - 1) * u3)
        = (φ / n) ^ 2 * (u1 * v1 + u2 * v2 + u3 * v3)
          - φ / n * (p / n ^ 2 * (φ / n * s - 1)) * (u1 ^ 2 + u2 ^ 2 + u3 ^ 2) := by
      ring
    rw [e1, ← hn2, ← h2]
    field_simp
    ring
  simp only [hD]
  simp only [motor.mk.injEq]
  refine ⟨trivial, ?_, ?_, ?_, ?_, ?_, ?_, ?_⟩
  · field_simp
    ring
  · field_simp
    ring
  · field_simp
    ring
  · field_simp
    ring
  · field_simp
    ring
  · field_simp
    ring
  · field_simp
    ring

theorem motor_exp_log {m : motor} (h : IsNormalizedM m) (hs : m.s ≠ -1) :
    expLine (logMotor m) = m := by
  obtain ⟨h1, h2⟩ := (isNormalizedM_iff m).1 h
  obtain ⟨s, u1, u2, u3, p, v1, v2, v3⟩ := m
  dsimp only at h1 h2 hs ⊢
  by_cases h0 : norm3 u1 u2 u3 = 0
  · obtain ⟨e1, e2, e3⟩ := norm3_eq_zero h0
    subst e1; subst e2; subst e3
    have hs1 : s = 1 := by
      rcases mul_eq_zero.1 (show (s - 1) * (s + 1) = 0 by nlinarith) with h' | h'
      · linarith
      · exact absurd (by linarith : s = -1) hs
    have hp : p = 0 := by
      rw [hs1] at h2
      linarith
    subst hs1; subst hp
    rw [logMotor]
    dsimp only
    rw [if_pos h0, expLine]
    dsimp only
    rw [if_pos h0]
  · have hnpos : 0 < norm3 u1 u2 u3 :=
      (norm3_nonneg u1 u2 u3).lt_of_ne (Ne.symm h0)
    have hsum : s ^ 2 + norm3 u1 u2 u3 ^ 2 = 1 := by
      rw [norm3_sq]; linarith
    obtain ⟨hcos, hsin, hφpos⟩ := atan2_spec hnpos hsum
    rw [logMotor]
    dsimp only
    rw [if_neg h0]
    exact expLine_logMotorAux s u1 u2 u3 p v1 v2 v3 (norm3 u1 u2 u3)
      (atan2 (norm3 u1 u2 u3) s) rfl hnpos hcos hsin hφpos (by linarith)

theorem rotor_exp_log {r : rotor} (h : IsNormalizedR r) (hs : r.s ≠ -1) :
    expBranch (logRotor r) = r := by
  have h1 := (isNormalizedR_iff r).1 h
  obtain ⟨s, b1, b2, b3⟩ := r
  dsimp only at h1 hs ⊢
  by_cases h0 : norm3 b1 b2 b3 = 0
  · obtain ⟨e1, e2, e3⟩ := norm3_eq_zero h0
    subst e1; subst e2; subst e3
    have hs1 : s = 1 := by
      rcases mul_eq_zero.1 (show (s - 1) * (s + 1) = 0 by nlinarith) with h' | h'
      · linarith
      · exact absurd (by linarith : s = -1) hs
    subst hs1
    rw [logRotor]
    dsimp only
    rw [if_pos h0, expBranch]
    dsimp only
    rw [if_pos h0]
  · have hnpos : 0 < norm3 b1 b2 b3 :=
      (norm3_nonneg b1 b2 b3).lt_of_ne (Ne.symm h0)
    have hn0 : norm3 b1 b2 b3 ≠ 0 := h0
    have hsum : s ^ 2 + norm3 b1 b2 b3 ^ 2 = 1 := by
      rw [norm3_sq]; linarith
    obtain ⟨hcos, hsin, hφpos⟩ := atan2_spec hnpos hsum
    rw [logRotor]
    dsimp only
    rw [if_neg h0, expBranch]
    dsimp only
    have hcn : (0 : ℝ) ≤ atan2 (norm3 b1 b2 b3) s / norm3 b1 b2 b3 := by positivity
    have hu : norm3 (atan2 (norm3 b1 b2 b3) s / norm3 b1 b2 b3 * b1)
        (atan2 (norm3 b1 b2 b3) s / norm3 b1 b2 b3 * b2)
        (atan2 (norm3 b1 b2 b3) s / norm3 b1 b2 b3 * b3) = atan2 (norm3 b1 b2 b3) s := by
      rw [norm3_smul hcn, div_mul_cancel₀ _ hn0]
    rw [hu, if_neg hφpos.ne']
    rw [hcos, hsin]
    simp only [rotor.mk.injEq]
    refine ⟨trivial, ?_, ?_, ?_⟩
    · field_simp
      ring
    · field_simp
      ring
    · field_simp
      ring

/-- Modelled from the spec: scalar division of a line, used to interpolate
motion (§4.5); the line operators are not under `src/`.  Componentwise. -/
def divLine (l : line) (t : ℝ) : line :=
  ⟨l.u1 / t, l.u2 / t, l.u3 / t, l.v1 / t, l.v2 / t, l.v3 / t⟩

/-- Componentwise scaling of a line (proof-side helper for `divLine`). -/
def smulLine (t : ℝ) (l : line) : line :=
  ⟨t * l.u1, t * l.u2, t * l.u3, t * l.v1, t * l.v2, t * l.v3⟩

theorem divLine_eq_smul (l : line) (t : ℝ) : divLine l t = smulLine (1 / t) l := by
  simp only [divLine, smulLine, line.mk.injEq]
  refine ⟨by ring, by ring, by ring, by ring, by ring, by ring⟩

theorem smulLine_one (l : line) : smulLine 1 l = l := by
  obtain ⟨u1, u2, u3, v1, v2, v3⟩ := l
  simp only [smulLine, one_mul]

/-- Iterated geometric product of a motor with itself (the k-fold chain used
by the slerp/blend tests). -/
def powM (m : motor) : ℕ → motor
  | 0 => motorOne
  | k + 1 => gpMM (powM m k) m

theorem norm3_zero : norm3 (0 : ℝ) 0 0 = 0 := by
  rw [norm3]
  norm_num

theorem expLine_of_ne {l : line} (h : norm3 l.u1 l.u2 l.u3 ≠ 0) :
    expLine l = expLineAux l.u1 l.u2 l.u3 l.v1 l.v2 l.v3 (norm3 l.u1 l.u2 l.u3) := by
  rw [expLine, if_neg h]

theorem expLine_ideal (v1 v2 v3 : ℝ) :
    expLine ⟨0, 0, 0, v1, v2, v3⟩ = ⟨1, 0, 0, 0, 0, v1, v2, v3⟩ := by
  rw [expLine]
  dsimp only
  rw [if_pos norm3_zero]

theorem expLine_smul_zero (l : line) : expLine (smulLine 0 l) = motorOne := by
  obtain ⟨u1, u2, u3, v1, v2, v3⟩ := l
  simp only [smulLine, zero_mul]
  rw [expLine_ideal]
  rfl

/-- Element of the commutative subalgebra generated by a fixed line `(u, v)`
and the pseudoscalar: `x·1 + y·L + z·e0123 + w·e0123·L`, written out in motor
coordinates (proof-side device for the exp addition theorem). -/
def spanM (u1 u2 u3 v1 v2 v3 x y z w : ℝ) : motor :=
  ⟨x, y * u1, y * u2, y * u3, z, y * v1 - w * u1, y * v2 - w * u2, y * v3 - w * u3⟩

theorem spanM_mul (u1 u2 u3 v1 v2 v3 x1 y1 z1 w1 x2 y2 z2 w2 : ℝ) :
    gpMM (spanM u1 u2 u3 v1 v2 v3 x1 y1 z1 w1) (spanM u1 u2 u3 v1 v2 v3 x2 y2 z2 w2)
      = spanM u1 u2 u3 v1 v2 v3
          (x1 * x2 - y1 * y2 * (u1 ^ 2 + u2 ^ 2 + u3 ^ 2))
          (x1 * y2 + x2 * y1)
          (x1 * z2 + x2 * z1 + 2 * (u1 * v1 + u2 * v2 + u3 * v3) * y1 * y2
            - (y1 * w2 + y2 * w1) * (u1 ^ 2 + u2 ^ 2 + u3 ^ 2))
          (x1 * w2 + x2 * w1 + y1 * z2 + y2 * z1) := by
  simp only [gpMM, spanM, motor.mk.injEq]
  refine ⟨by ring, by ring, by ring, by ring, by ring, by ring, by ring, by ring⟩

theorem expLineAux_eq_spanM (u1 u2 u3 v1 v2 v3 γ n : ℝ) (hγ : γ ≠ 0) (hn : n ≠ 0) :
    expLineAux (γ * u1) (γ * u2) (γ * u3) (γ * v1) (γ * v2) (γ * v3) (γ * n)
      = spanM u1 u2 u3 v1 v2 v3 (Real.cos (γ * n)) (Real.sin (γ * n) / n)
          (γ * (u1 * v1 + u2 * v2 + u3 * v3) * Real.sin (γ * n) / n)
          ((u1 * v1 + u2 * v2 + u3 * v3) / n ^ 2
            * (Real.sin (γ * n) / n - γ * Real.cos (γ * n))) := by
  simp only [expLineAux, spanM, motor.mk.injEq]
  refine ⟨trivial, ?_, ?_, ?_, ?_, ?_, ?_, ?_⟩
  · field_simp
    ring
  · field_simp
    ring
  · field_simp
    ring
  · field_simp
    ring
  · field_simp
    ring
  · field_simp
    ring
  · field_simp
    ring

theorem expLineAux_add (u1 u2 u3 v1 v2 v3 n α β : ℝ) (hn : 0 < n) (ha : 0 < α)
    (hb : 0 < β) (hn2 : n ^ 2 = u1 ^ 2 + u2 ^ 2 + u3 ^ 2) :
    gpMM (expLineAux (α * u1) (α * u2) (α * u3) (α * v1) (α * v2) (α * v3) (α * n))
         (expLineAux (β * u1) (β * u2) (β * u3) (β * v1) (β * v2) (β * v3) (β * n))
      = expLineAux ((α + β) * u1) ((α + β) * u2) ((α + β) * u3)
          ((α + β) * v1) ((α + β) * v2) ((α + β) * v3) ((α + β) * n) := by
  have hab : (0 : ℝ) < α + β := by linarith
  rw [expLineAux_eq_spanM u1 u2 u3 v1 v2 v3 α n ha.ne' hn.ne',
    expLineAux_eq_spanM u1 u2 u3 v1 v2 v3 β n hb.ne' hn.ne',
    expLineAux_eq_spanM u1 u2 u3 v1 v2 v3 (α + β) n hab.ne' hn.ne',
    spanM_mul]
  have hadd : (α + β) * n = α * n + β * n := by ring
  have hx : Real.cos (α * n) * Real.cos (β * n)
      - (Real.sin (α * n) / n) * (Real.sin (β * n) / n) * (u1 ^ 2 + u2 ^ 2 + u3 ^ 2)
      = Real.cos ((α + β) * n) := by
    rw [← hn2, hadd, Real.cos_add]
    field_simp
    ring
  have hy : Real.cos (α * n) * (Real.sin (β * n) / n)
      + Real.cos (β * n) * (Real.sin (α * n) / n)
      = Real.sin ((α + β) * n) / n := by
    rw [hadd, Real.sin_add]
    field_simp
    ring
  have hz : Real.cos (α * n) * (β * (u1 * v1 + u2 * v2 + u3 * v3) * Real.sin (β * n) / n)
      + Real.cos (β * n) * (α * (u1 * v1 + u2 * v2 + u3 * v3) * Real.sin (α * n) / n)
      + 2 * (u1 * v1 + u2 * v2 + u3 * v3) * (Real.sin (α * n) / n) * (Real.sin (β * n) / n)
      - ((Real.sin (α * n) / n) * ((u1 * v1 + u2 * v2 + u3 * v3) / n ^ 2
            * (Real.sin (β * n) / n - β * Real.cos (β * n)))
          + (Real.sin (β * n) / n) * ((u1 * v1 + u2 * v2 + u3 * v3) / n ^ 2
            * (Real.sin (α * n) / n - α * Real.cos (α * n))))
          * (u1 ^ 2 + u2 ^ 2 + u3 ^ 2)
      = (α + β) * (u1 * v1 + u2 * v2 + u3 * v3) * Real.sin ((α + β) * n) / n := by
    rw [← hn2, hadd, Real.sin_add]
    field_simp
    ring
  have hw : Real.cos (α * n) * ((u1 * v1 + u2 * v2 + u3 * v3) / n ^ 2
        * (Real.sin (β * n) / n - β * Real.cos (β * n)))
      + Real.cos (β * n) * ((u1 * v1 + u2 * v2 + u3 * v3) / n ^ 2
        * (Real.sin (α * n) / n - α * Real.cos (α * n)))
      + (Real.sin (α * n) / n) * (β * (u1 * v1 + u2 * v2 + u3 * v3) * Real.sin (β * n) / n)
      + (Real.sin (β * n) / n) * (α * (u1 * v1 + u2 * v2 + u3 * v3) * Real.sin (α * n) / n)
      = (u1 * v1 + u2 * v2 + u3 * v3) / n ^ 2
          * (Real.sin ((α + β) * n) / n - (α + β) * Real.cos ((α + β) * n)) := by
    rw [hadd, Real.sin_add, Real.cos_add]
    field_simp
    ring
  simp only [spanM, motor.mk.injEq]
  refine ⟨by linear_combination hx, by linear_combination u1 * hy,
    by linear_combination u2 * hy, by linear_combination u3 * hy,
    by linear_combination hz,
    by linear_combination v1 * hy - u1 * hw,
    by linear_combination v2 * hy - u2 * hw,
    by linear_combination v3 * hy - u3 * hw⟩

theorem expLine_smul_add (l : line) {α β : ℝ} (ha : 0 ≤ α) (hb : 0 < β) :
    gpMM (expLine (smulLine α l)) (expLine (smulLine β l))
      = expLine (smulLine (α + β) l) := by
  obtain ⟨u1, u2, u3, v1, v2, v3⟩ := l
  rcases eq_or_lt_of_le ha with heq | hapos
  · rw [← heq, zero_add, expLine_smul_zero, gpMM_one_left]
  · have hab : (0 : ℝ) < α + β := by linarith
    by_cases h0 : norm3 u1 u2 u3 = 0
    · obtain ⟨e1, e2, e3⟩ := norm3_eq_zero h0
      subst e1; subst e2; subst e3
      simp only [smulLine, mul_zero]
      rw [expLine_ideal, expLine_ideal, expLine_ideal]
      simp only [gpMM, motor.mk.injEq]
      refine ⟨by ring, by ring, by ring, by ring, by ring, by ring, by ring, by ring⟩
    · have hn : 0 < norm3 u1 u2 u3 := (norm3_nonneg u1 u2 u3).lt_of_ne (Ne.symm h0)
      have hα : norm3 (α * u1) (α * u2) (α * u3) = α * norm3 u1 u2 u3 :=
        norm3_smul hapos.le u1 u2 u3
      have hβ : norm3 (β * u1) (β * u2) (β * u3) = β * norm3 u1 u2 u3 :=
        norm3_smul hb.le u1 u2 u3
      have hαβ : norm3 ((α + β) * u1) ((α + β) * u2) ((α + β) * u3)
          = (α + β) * norm3 u1 u2 u3 := norm3_smul hab.le u1 u2 u3
      simp only [smulLine]
      rw [expLine_of_ne (l := ⟨α * u1, α * u2, α * u3, α * v1, α * v2, α * v3⟩)
          (by dsimp only; rw [hα]; positivity),
        expLine_of_ne (l := ⟨β * u1, β * u2, β * u3, β * v1, β * v2, β * v3⟩)
          (by dsimp only; rw [hβ]; positivity),
        expLine_of_ne
          (l := ⟨(α + β) * u1, (α + β) * u2, (α + β) * u3,
                 (α + β) * v1, (α + β) * v2, (α + β) * v3⟩)
          (by dsimp only; rw [hαβ]; positivity)]
      dsimp only
      rw [hα, hβ, hαβ]
      exact expLineAux_add u1 u2 u3 v1 v2 v3 (norm3 u1 u2 u3) α β hn hapos hb
        (norm3_sq u1 u2 u3)

theorem powM_expLine (l : line) (k : ℕ) (hk : k ≠ 0) (j : ℕ) :
    powM (expLine (smulLine (1 / (k : ℝ)) l)) j
      = expLine (smulLine ((j : ℝ) / (k : ℝ)) l) := by
  have hkpos : (0 : ℝ) < (k : ℝ) := by
    exact_mod_cast Nat.pos_of_ne_zero hk
  induction j with
  | zero =>
    rw [show ((0 : ℕ) : ℝ) / (k : ℝ) = 0 by simp]
    rw [expLine_smul_zero]
    rfl
  | succ j ih =>
    rw [powM, ih, expLine_smul_add l (by positivity) (by positivity)]
    rw [show (j : ℝ) / (k : ℝ) + 1 / (k : ℝ) = ((j + 1 : ℕ) : ℝ) / (k : ℝ) by
      push_cast
      ring]

theorem powM_interp {m : motor} (h : IsNormalizedM m) (hs : m.s ≠ -1) (k : ℕ)
    (hk : k ≠ 0) : powM (expLine (divLine (logMotor m) (k : ℝ))) k = m := by
  have hkpos : (0 : ℝ) < (k : ℝ) := by
    exact_mod_cast Nat.pos_of_ne_zero hk
  rw [divLine_eq_smul, powM_expLine _ k hk k,
    show ((k : ℝ)) / (k : ℝ) = 1 by field_simp, smulLine_one]
  exact motor_exp_log h hs

/-- Convenience constructor from `rotor.hpp` lines 64-76: `norm` is the axis
length, `inv_norm = -1/norm`, `half = 0.5*ang`, `scale = sin(half)*inv_norm`,
and the lanes are `(cos half, x*scale, y*scale, z*scale)`. -/
def mkRotor (ang x y z : ℝ) : rotor :=
  ⟨Real.cos (0.5 * ang),
   x * (Real.sin (0.5 * ang) * (-1 / Real.sqrt (x * x + y * y + z * z))),
   y * (Real.sin (0.5 * ang) * (-1 / Real.sqrt (x * x + y * y + z * z))),
   z * (Real.sin (0.5 * ang) * (-1 / Real.sqrt (x * x + y * y + z * z)))⟩

/-- Modelled from the spec: the translator constructor (§4.3; `translator.hpp`
is not under `src/`): the direction is normalized internally, the ideal lanes
store half the distance along the normalized direction (sign per the
library's composition convention), the scalar lane is fixed at 1. -/
def mkTranslator (d x y z : ℝ) : translator :=
  ⟨-(0.5 * d) * (x / Real.sqrt (x * x + y * y + z * z)),
   -(0.5 * d) * (y / Real.sqrt (x * x + y * y + z * z)),
   -(0.5 * d) * (z / Real.sqrt (x * x + y * y + z * z))⟩

/-- Modelled from the spec: the `dp_bc` kernel (§4.1; kernel file not under
`src/`): the four-lane dot product of the pack with itself, broadcast.  Per
the `normalize` contract in `rotor.hpp` (enforcing `r ~r = 1`) it covers all
four lanes, scalar included. -/
def dpBC (r : rotor) : ℝ := r.s * r.s + r.b23 * r.b23 + r.b31 * r.b31 + r.b12 * r.b12

/-- Uniform scale of all four rotor lanes (a broadcast multiply). -/
def scaleRotor (c : ℝ) (r : rotor) : rotor := ⟨c * r.s, c * r.b23, c * r.b31, c * r.b12⟩

/-- Contract of the hardware `rsqrtps` approximation used by
`rotor::normalize` (`rotor.hpp` lines 96-107): maximum relative error
1.5·2⁻¹² = 3/8192 against the exact reciprocal square root. -/
def rsqrtSpec (f : ℝ → ℝ) : Prop :=
  ∀ x : ℝ, 0 < x → |f x * Real.sqrt x - 1| ≤ 3 / 8192

/-- `rotor::normalize` from `rotor.hpp` lines 102-107: multiply the pack by
`rsqrtps(dp_bc(p1, p1))`, with the hardware instruction modelled by `f`. -/
def normalizeR (f : ℝ → ℝ) (r : rotor) : rotor := scaleRotor (f (dpBC r)) r

/-- `rotor::normalized` from `rotor.hpp` lines 110-115: copies the receiver
and normalizes the copy; the receiver is left unchanged (in this value-level
model no operation mutates its argument). -/
def normalizedR (f : ℝ → ℝ) (r : rotor) : rotor := normalizeR f r

/-- Adds 1 to the scalar lane (the `_mm_add_ps(p1, set_ss(1))` step of the
square roots). -/
def plusOneR (r : rotor) : rotor := ⟨r.s + 1, r.b23, r.b31, r.b12⟩

/-- Modelled from the spec: `sqrt : rotor → rotor` (§4.5; the exp/log/sqrt
module is not under `src/`): form `1 + r` coordinate-wise and renormalize
through `rotor::normalize`. -/
def sqrtRotor (f : ℝ → ℝ) (r : rotor) : rotor := normalizeR f (plusOneR r)

/-- Multiplication of a motor by the central element `a + b·e0123` (used by
the two-term motor normalization). -/
def centralScale (a b : ℝ) (m : motor) : motor :=
  ⟨a * m.s, a * m.e23, a * m.e31, a * m.e12, a * m.p + b * m.s,
   a * m.e01 - b * m.e23, a * m.e02 - b * m.e31, a * m.e03 - b * m.e12⟩

/-- Modelled from the spec: motor normalization (§4.5): `m ~m` is central with
scalar part ρ0 and e0123 part ρ4, and the two-term procedure multiplies by
the central inverse square root `ρ0^(-1/2) · (1 - ρ4/(2 ρ0) e0123)`, which
enforces `m ~m = 1` (normalizing only the scalar part would leave the
translational component unnormalized). -/
def normalizeM (m : motor) : motor :=
  centralScale (1 / Real.sqrt ((gpMM m (revM m)).s))
    (-(gpMM m (revM m)).p / (2 * (gpMM m (revM m)).s * Real.sqrt ((gpMM m (revM m)).s))) m

/-- Adds 1 to the scalar lane of a motor. -/
def plusOneM (m : motor) : motor :=
  ⟨m.s + 1, m.e23, m.e31, m.e12, m.p, m.e01, m.e02, m.e03⟩

/-- Modelled from the spec: `sqrt : motor → motor` (§4.5): the identical
"(1+m) renormalized" identity as the rotor case, generalized to the 8-wide
pack through the two-term motor normalization. -/
def sqrtMotor (m : motor) : motor := normalizeM (plusOneM m)

/-- Contract of the hardware `rcpps` approximation used by the rotor uniform
inverse scale (`rotor.hpp` lines 271-282 and 373-384): maximum relative error
1.5·2⁻¹² = 3/8192 against the exact reciprocal. -/
def rcpSpec (f : ℝ → ℝ) : Prop := ∀ x : ℝ, x ≠ 0 → |f x * x - 1| ≤ 3 / 8192

/-- `operator/(rotor, float)` from `rotor.hpp` lines 373-378 (and the
compound form at lines 271-275): every lane is multiplied by the hardware
approximate reciprocal `rcpps(s)`, modelled by `f`, instead of being divided. -/
def divRotor (f : ℝ → ℝ) (r : rotor) (s : ℝ) : rotor := scaleRotor (f s) r

/-- `operator*(rotor, float)` from `rotor.hpp` lines 347-352: uniform scale. -/
def mulRotor (r : rotor) (s : ℝ) : rotor := scaleRotor s r

/-- Componentwise relative-tolerance comparison of rotors, modelling the
doctest `Approx(x).epsilon(tol)` checks of the test suite. -/
def rotorApprox (tol : ℝ) (a b : rotor) : Prop :=
  |a.s - b.s| ≤ tol * |b.s| ∧ |a.b23 - b.b23| ≤ tol * |b.b23| ∧
  |a.b31 - b.b31| ≤ tol * |b.b31| ∧ |a.b12 - b.b12| ≤ tol * |b.b12|

/-- Componentwise relative-tolerance comparison of motors on all 8
coordinates. -/
def motorApprox (tol : ℝ) (a b : motor) : Prop :=
  |a.s - b.s| ≤ tol * |b.s| ∧ |a.e23 - b.e23| ≤ tol * |b.e23| ∧
  |a.e31 - b.e31| ≤ tol * |b.e31| ∧ |a.e12 - b.e12| ≤ tol * |b.e12| ∧
  |a.p - b.p| ≤ tol * |b.p| ∧ |a.e01 - b.e01| ≤ tol * |b.e01| ∧
  |a.e02 - b.e02| ≤ tol * |b.e02| ∧ |a.e03 - b.e03| ≤ tol * |b.e03|

theorem rotorApprox_of_eq {tol : ℝ} (htol : 0 ≤ tol) {a b : rotor} (h : a = b) :
    rotorApprox tol a b := by
  subst h
  refine ⟨?_, ?_, ?_, ?_⟩ <;>
    simp only [sub_self, abs_zero] <;> positivity

theorem motorApprox_of_eq {tol : ℝ} (htol : 0 ≤ tol) {a b : motor} (h : a = b) :
    motorApprox tol a b := by
  subst h
  refine ⟨?_, ?_, ?_, ?_, ?_, ?_, ?_, ?_⟩ <;>
    simp only [sub_self, abs_zero] <;> positivity

theorem rotorApprox_mono {t1 t2 : ℝ} (h12 : t1 ≤ t2) {a b : rotor}
    (h : rotorApprox t1 a b) : rotorApprox t2 a b := by
  obtain ⟨c1, c2, c3, c4⟩ := h
  exact ⟨c1.trans (mul_le_mul_of_nonneg_right h12 (abs_nonneg _)),
    c2.trans (mul_le_mul_of_nonneg_right h12 (abs_nonneg _)),
    c3.trans (mul_le_mul_of_nonneg_right h12 (abs_nonneg _)),
    c4.trans (mul_le_mul_of_nonneg_right h12 (abs_nonneg _))⟩

theorem abs_sq_sub_one {t ε : ℝ} (hε : 0 ≤ ε) (ht : |t - 1| ≤ ε) :
    |t ^ 2 - 1| ≤ ε * (2 + ε) := by
  have e1 : t ^ 2 - 1 = (t - 1) * (t - 1) + 2 * (t - 1) := by ring
  calc |t ^ 2 - 1| = |(t - 1) * (t - 1) + 2 * (t - 1)| := by rw [e1]
    _ ≤ |(t - 1) * (t - 1)| + |2 * (t - 1)| := abs_add _ _
    _ = |t - 1| * |t - 1| + 2 * |t - 1| := by
        rw [abs_mul, abs_mul, abs_two]
    _ ≤ ε * ε + 2 * ε := by nlinarith [abs_nonneg (t - 1)]
    _ = ε * (2 + ε) := by ring

theorem sq_tol {t v ε : ℝ} (hε : 0 ≤ ε) (ht : |t - 1| ≤ ε) :
    |t ^ 2 * v - v| ≤ ε * (2 + ε) * |v| := by
  rw [show t ^ 2 * v - v = (t ^ 2 - 1) * v by ring, abs_mul]
  exact mul_le_mul_of_nonneg_right (abs_sq_sub_one hε ht) (abs_nonneg v)

theorem gpRR_scale_scale (c d : ℝ) (a b : rotor) :
    gpRR (scaleRotor c a) (scaleRotor d b) = scaleRotor (c * d) (gpRR a b) := by
  simp only [gpRR, scaleRotor, rotor.mk.injEq]
  refine ⟨by ring, by ring, by ring, by ring⟩

theorem scaleRotor_comp (c d : ℝ) (r : rotor) :
    scaleRotor c (scaleRotor d r) = scaleRotor (c * d) r := by
  simp only [scaleRotor, rotor.mk.injEq]
  refine ⟨by ring, by ring, by ring, by ring⟩

theorem plusOneR_sq {r : rotor} (h1 : r.s ^ 2 + r.b23 ^ 2 + r.b31 ^ 2 + r.b12 ^ 2 = 1) :
    gpRR (plusOneR r) (plusOneR r) = scaleRotor (2 + 2 * r.s) r := by
  simp only [gpRR, plusOneR, scaleRotor, rotor.mk.injEq]
  refine ⟨by linear_combination -h1, by ring, by ring, by ring⟩

theorem dpBC_plusOne {r : rotor}
    (h1 : r.s ^ 2 + r.b23 ^ 2 + r.b31 ^ 2 + r.b12 ^ 2 = 1) :
    dpBC (plusOneR r) = 2 + 2 * r.s := by
  simp only [dpBC, plusOneR]
  linear_combination h1

theorem scalar_ge_neg_one {r : rotor} (h : IsNormalizedR r) : -1 ≤ r.s := by
  have h1 := (isNormalizedR_iff r).1 h
  nlinarith [sq_nonneg (r.s + 1)]

theorem sqrtRotor_sq {f : ℝ → ℝ} (hf : rsqrtSpec f) {r : rotor}
    (h : IsNormalizedR r) (hs : r.s ≠ -1) :
    rotorApprox (3 / 8192 * (2 + 3 / 8192))
      (gpRR (sqrtRotor f r) (sqrtRotor f r)) r := by
  have h1 := (isNormalizedR_iff r).1 h
  have hsgt : -1 < r.s := (scalar_ge_neg_one h).lt_of_ne (Ne.symm hs)
  have hx : dpBC (plusOneR r) = 2 + 2 * r.s := dpBC_plusOne h1
  have hxpos : 0 < dpBC (plusOneR r) := by rw [hx]; linarith
  have ht := hf (dpBC (plusOneR r)) hxpos
  have key : gpRR (sqrtRotor f r) (sqrtRotor f r)
      = scaleRotor ((f (dpBC (plusOneR r)) * Real.sqrt (dpBC (plusOneR r))) ^ 2) r := by
    unfold sqrtRotor normalizeR
    rw [gpRR_scale_scale, plusOneR_sq h1, scaleRotor_comp]
    rw [mul_pow, Real.sq_sqrt hxpos.le, hx]
    congr 1
    ring
  rw [key]
  have hε : (0 : ℝ) ≤ 3 / 8192 := by norm_num
  simp only [scaleRotor, rotorApprox]
  exact ⟨sq_tol hε ht, sq_tol hε ht, sq_tol hε ht, sq_tol hε ht⟩

theorem centralScale_comp (a b c d : ℝ) (m : motor) :
    centralScale a b (centralScale c d m) = centralScale (a * c) (a * d + b * c) m := by
  simp only [centralScale, motor.mk.injEq]
  refine ⟨by ring, by ring, by ring, by ring, by ring, by ring, by ring, by ring⟩

theorem gpMM_centralScale_left (a b : ℝ) (x y : motor) :
    gpMM (centralScale a b x) y = centralScale a b (gpMM x y) := by
  simp only [gpMM, centralScale, motor.mk.injEq]
  refine ⟨by ring, by ring, by ring, by ring, by ring, by ring, by ring, by ring⟩

theorem gpMM_centralScale_right (a b : ℝ) (x y : motor) :
    gpMM x (centralScale a b y) = centralScale a b (gpMM x y) := by
  simp only [gpMM, centralScale, motor.mk.injEq]
  refine ⟨by ring, by ring, by ring, by ring, by ring, by ring, by ring, by ring⟩

theorem centralScale_eq_self {a b : ℝ} (ha : a = 1) (hb : b = 0) (m : motor) :
    centralScale a b m = m := by
  rw [ha, hb]
  cases m
  simp only [centralScale, motor.mk.injEq]
  refine ⟨by ring, by ring, by ring, by ring, by ring, by ring, by ring, by ring⟩

theorem plusOneM_sq {m : motor}
    (h1 : m.s ^ 2 + m.e23 ^ 2 + m.e31 ^ 2 + m.e12 ^ 2 = 1)
    (h2 : m.s * m.p = m.e23 * m.e01 + m.e31 * m.e02 + m.e12 * m.e03) :
    gpMM (plusOneM m) (plusOneM m) = centralScale (2 + 2 * m.s) (2 * m.p) m := by
  simp only [gpMM, plusOneM, centralScale, motor.mk.injEq]
  refine ⟨by linear_combination -h1, by ring, by ring, by ring,
    by linear_combination (-2 : ℝ) * h2, by ring, by ring, by ring⟩

theorem sqrtMotor_sq {m : motor} (h : IsNormalizedM m) (hs : m.s ≠ -1) :
    gpMM (sqrtMotor m) (sqrtMotor m) = m := by
  obtain ⟨h1, h2⟩ := (isNormalizedM_iff m).1 h
  have hsgt : -1 < m.s := by
    rcases lt_or_eq_of_le (show -1 ≤ m.s by nlinarith [sq_nonneg (m.s + 1)]) with h' | h'
    · exact h'
    · exact absurd h'.symm hs
  have hxpos : (0 : ℝ) < 2 + 2 * m.s := by linarith
  have hs0 : (gpMM (plusOneM m) (revM (plusOneM m))).s = 2 + 2 * m.s := by
    rw [gpMM_rev_self]
    simp only [plusOneM]
    linear_combination h1
  have hp0 : (gpMM (plusOneM m) (revM (plusOneM m))).p = 2 * m.p := by
    rw [gpMM_rev_self]
    simp only [plusOneM]
    linear_combination 2 * h2
  unfold sqrtMotor normalizeM
  rw [hs0, hp0]
  have hyv : Real.sqrt (2 + 2 * m.s) = Real.sqrt (2 + 2 * m.s) := rfl
  generalize hy : Real.sqrt (2 + 2 * m.s) = y
  have hyy : y * y = 2 + 2 * m.s := by
    rw [← hy]
    exact Real.mul_self_sqrt hxpos.le
  have hyne : y ≠ 0 := by
    rw [← hy, Real.sqrt_ne_zero']
    exact hxpos
  rw [gpMM_centralScale_left, gpMM_centralScale_right, centralScale_comp,
    plusOneM_sq h1 h2, centralScale_comp]
  refine centralScale_eq_self ?_ ?_ m
  · rw [div_mul_div_comm, one_mul, hyy]
    exact one_div_mul_cancel hxpos.ne'
  · field_simp
    ring

theorem normalizeR_err {f : ℝ → ℝ} (hf : rsqrtSpec f) {r : rotor}
    (hb : 0 < r.b23 ^ 2 + r.b31 ^ 2 + r.b12 ^ 2) :
    |(gpRR (normalizeR f r) (revR (normalizeR f r))).s - 1|
      ≤ 3 / 8192 * (2 + 3 / 8192) := by
  have hd : 0 < dpBC r := by
    unfold dpBC
    nlinarith [sq_nonneg r.s]
  have ht := hf (dpBC r) hd
  have key : (gpRR (normalizeR f r) (revR (normalizeR f r))).s
      = (f (dpBC r) * Real.sqrt (dpBC r)) ^ 2 := by
    rw [gpRR_rev_self]
    simp only [normalizeR, scaleRotor]
    rw [show (f (dpBC r) * Real.sqrt (dpBC r)) ^ 2 = f (dpBC r) ^ 2 * dpBC r by
      rw [mul_pow, Real.sq_sqrt hd.le]]
    unfold dpBC
    ring
  rw [key]
  have h0 := sq_tol (v := 1) (by norm_num : (0:ℝ) ≤ 3 / 8192) ht
  simpa using h0

theorem mkRotor_norm_sq {x y z : ℝ} (h : x ^ 2 + y ^ 2 + z ^ 2 ≠ 0) :
    Real.sqrt (x * x + y * y + z * z) ^ 2 = x ^ 2 + y ^ 2 + z ^ 2 := by
  rw [show x * x + y * y + z * z = x ^ 2 + y ^ 2 + z ^ 2 by ring]
  exact Real.sq_sqrt (by positivity)

theorem mkRotor_norm_ne {x y z : ℝ} (h : x ^ 2 + y ^ 2 + z ^ 2 ≠ 0) :
    Real.sqrt (x * x + y * y + z * z) ≠ 0 := by
  rw [show x * x + y * y + z * z = x ^ 2 + y ^ 2 + z ^ 2 by ring,
    Real.sqrt_ne_zero']
  exact (by positivity : (0:ℝ) ≤ x ^ 2 + y ^ 2 + z ^ 2).lt_of_ne (Ne.symm h)

theorem mkRotor_normalized {ang x y z : ℝ} (h : x ^ 2 + y ^ 2 + z ^ 2 ≠ 0) :
    IsNormalizedR (mkRotor ang x y z) := by
  rw [isNormalizedR_iff]
  simp only [mkRotor]
  have hsq := mkRotor_norm_sq h
  have hne := mkRotor_norm_ne h
  have htrig := Real.sin_sq_add_cos_sq (0.5 * ang)
  field_simp
  linear_combination (x ^ 2 + y ^ 2 + z ^ 2) * htrig
    + (Real.cos (0.5 * ang) ^ 2 - 1) * hsq

theorem mkRotor_scalar (ang x y z : ℝ) : (mkRotor ang x y z).s = Real.cos (ang / 2) := by
  simp only [mkRotor]
  rw [show (0.5 : ℝ) * ang = ang / 2 by ring]

theorem mkRotor_biv_norm {ang x y z : ℝ} (h : x ^ 2 + y ^ 2 + z ^ 2 ≠ 0) :
    norm3 (mkRotor ang x y z).b23 (mkRotor ang x y z).b31 (mkRotor ang x y z).b12
      = |Real.sin (ang / 2)| := by
  simp only [mkRotor]
  unfold norm3
  have hsq := mkRotor_norm_sq h
  rw [show (x * (Real.sin (0.5 * ang) * (-1 / Real.sqrt (x * x + y * y + z * z)))) ^ 2
      + (y * (Real.sin (0.5 * ang) * (-1 / Real.sqrt (x * x + y * y + z * z)))) ^ 2
      + (z * (Real.sin (0.5 * ang) * (-1 / Real.sqrt (x * x + y * y + z * z)))) ^ 2
      = Real.sin (0.5 * ang) ^ 2
        * ((x ^ 2 + y ^ 2 + z ^ 2) * (1 / Real.sqrt (x * x + y * y + z * z)) ^ 2) by ring]
  rw [show (1 / Real.sqrt (x * x + y * y + z * z)) ^ 2
      = 1 / (x ^ 2 + y ^ 2 + z ^ 2) by rw [div_pow, one_pow, hsq]]
  rw [mul_one_div, div_self h, mul_one, Real.sqrt_sq_eq_abs,
    show (0.5 : ℝ) * ang = ang / 2 by ring]

/-- Modelled from the spec: the lane-0 scale factor of the `sw012` sandwich
kernel (§4.1; the kernel file is not under `src/`): conjugating the
homogeneous lane gives `s² + |u|²` times its value (1 for a normalized
rotor). -/
def swScale (r : rotor) : ℝ := r.s ^ 2 + r.b23 ^ 2 + r.b31 ^ 2 + r.b12 ^ 2

/-- Modelled from the spec: x-lane of the Euclidean rotation part of the
sandwich `r x ~r` (§4.1), derived from the geometric product:
`(s² − |u|²) v + 2 (u·v) u − 2 s (u × v)`. -/
def swX (r : rotor) (x y z : ℝ) : ℝ :=
  (r.s ^ 2 - r.b23 ^ 2 - r.b31 ^ 2 - r.b12 ^ 2) * x
    + 2 * (r.b23 * x + r.b31 * y + r.b12 * z) * r.b23
    - 2 * r.s * (r.b31 * z - r.b12 * y)

/-- y-lane of the Euclidean rotation part of the sandwich (see `swX`). -/
def swY (r : rotor) (x y z : ℝ) : ℝ :=
  (r.s ^ 2 - r.b23 ^ 2 - r.b31 ^ 2 - r.b12 ^ 2) * y
    + 2 * (r.b23 * x + r.b31 * y + r.b12 * z) * r.b31
    - 2 * r.s * (r.b12 * x - r.b23 * z)

/-- z-lane of the Euclidean rotation part of the sandwich (see `swX`). -/
def swZ (r : rotor) (x y z : ℝ) : ℝ :=
  (r.s ^ 2 - r.b23 ^ 2 - r.b31 ^ 2 - r.b12 ^ 2) * z
    + 2 * (r.b23 * x + r.b31 * y + r.b12 * z) * r.b12
    - 2 * r.s * (r.b23 * y - r.b31 * x)

/-- Single-entity conjugation of a point by a rotor (`rotor.hpp` lines
189-197 delegating to the `sw012` kernel, which is modelled from the spec). -/
def swPoint (r : rotor) (q : point) : point :=
  ⟨swScale r * q.w, swX r q.x q.y q.z, swY r q.x q.y q.z, swZ r q.x q.y q.z⟩

/-- Single-entity conjugation of a plane by a rotor (`rotor.hpp` lines
135-142; per the source note it is the identical kernel as the point case). -/
def swPlane (r : rotor) (q : plane) : plane :=
  ⟨swScale r * q.d, swX r q.a q.b q.c, swY r q.a q.b q.c, swZ r q.a q.b q.c⟩

/-- Single-entity conjugation of a direction by a rotor (`rotor.hpp` lines
215-224; identical kernel, homogeneous lane fixed at 0). -/
def swDirection (r : rotor) (q : direction) : direction :=
  ⟨swX r q.x q.y q.z, swY r q.x q.y q.z, swZ r q.x q.y q.z⟩

/-- Single-entity conjugation of a line by a rotor (`rotor.hpp` lines 166-173
delegating to the `swMM` kernel, modelled from the spec): both the Euclidean
and the ideal sub-pack rotate by the same Euclidean sandwich. -/
def swLine (r : rotor) (l : line) : line :=
  ⟨swX r l.u1 l.u2 l.u3, swY r l.u1 l.u2 l.u3, swZ r l.u1 l.u2 l.u3,
   swX r l.v1 l.v2 l.v3, swY r l.v1 l.v2 l.v3, swZ r l.v1 l.v2 l.v3⟩

/-- Modelled from the spec: the batched sandwich loop with distinct input and
output arrays (§4.1; the batch bodies are not under `src/`): for each index
`i < count`, slot `i` of the output buffer is overwritten with `f` applied to
slot `i` of the input buffer; the group element (and hence `f`) is held
invariant across the whole batch. -/
def batchSep {σ : Type} (f : σ → σ) (src dst : List σ) (dfl : σ) : ℕ → List σ
  | 0 => dst
  | n + 1 => (batchSep f src dst dfl n).set n (f ((src[n]?).getD dfl))

/-- Modelled from the spec: the batched sandwich loop in the permitted
aliasing case `in == out` (§4.1): each step reads slot `i` of the current
buffer and overwrites that same slot. -/
def batchInPlace {σ : Type} (f : σ → σ) (buf : List σ) (dfl : σ) : ℕ → List σ
  | 0 => buf
  | n + 1 => (batchInPlace f buf dfl n).set n
      (f (((batchInPlace f buf dfl n)[n]?).getD dfl))

theorem length_batchSep {σ : Type} (f : σ → σ) (src dst : List σ) (dfl : σ)
    (n : ℕ) : (batchSep f src dst dfl n).length = dst.length := by
  induction n with
  | zero => rfl
  | succ n ih => rw [batchSep, List.length_set, ih]

theorem batchSep_get_ge {σ : Type} (f : σ → σ) (src dst : List σ) (dfl : σ)
    {n i : ℕ} (h : n ≤ i) : (batchSep f src dst dfl n)[i]? = dst[i]? := by
  induction n with
  | zero => rfl
  | succ n ih =>
    rw [batchSep, List.getElem?_set_ne (by omega), ih (by omega)]

theorem batchSep_get_lt {σ : Type} (f : σ → σ) (src dst : List σ) (dfl : σ)
    {n i : ℕ} (hn : n ≤ dst.length) (hi : i < n) :
    (batchSep f src dst dfl n)[i]? = some (f ((src[i]?).getD dfl)) := by
  induction n with
  | zero => omega
  | succ n ih =>
    rw [batchSep]
    rcases eq_or_lt_of_le (Nat.lt_succ_iff.mp hi) with heq | hlt
    · subst heq
      rw [List.getElem?_set_self (by rw [length_batchSep]; omega)]
  
    · rw [List.getElem?_set_ne (by omega)]
      exact ih (by omega) hlt

theorem length_batchInPlace {σ : Type} (f : σ → σ) (buf : List σ) (dfl : σ)
    (n : ℕ) : (batchInPlace f buf dfl n).length = buf.length := by
  induction n with
  | zero => rfl
  | succ n ih => rw [batchInPlace, List.length_set, ih]

theorem batchInPlace_get_ge {σ : Type} (f : σ → σ) (buf : List σ) (dfl : σ)
    {n i : ℕ} (h : n ≤ i) : (batchInPlace f buf dfl n)[i]? = buf[i]? := by
  induction n with
  | zero => rfl
  | succ n ih =>
    rw [batchInPlace, List.getElem?_set_ne (by omega), ih (by omega)]

theorem batchInPlace_get_lt {σ : Type} (f : σ → σ) (buf : List σ) (dfl : σ)
    {n i : ℕ} (hn : n ≤ buf.length) (hi : i < n) :
    (batchInPlace f buf dfl n)[i]? = some (f ((buf[i]?).getD dfl)) := by
  induction n with
  | zero => omega
  | succ n ih =>
    rw [batchInPlace]
    rcases eq_or_lt_of_le (Nat.lt_succ_iff.mp hi) with heq | hlt
    · subst heq
      rw [batchInPlace_get_ge f buf dfl (le_refl i),
        List.getElem?_set_self (by rw [length_batchInPlace]; omega)]
    · rw [List.getElem?_set_ne (by omega)]
      exact ih (by omega) hlt

/-- Faithfulness of a batched loop to its scalar operation: count 0 is a
no-op, every processed slot of the separate-buffer form and of the in-place
form holds exactly the scalar result, and unprocessed slots are untouched. -/
def BatchFaithful {σ : Type} (f : σ → σ) (dfl : σ) : Prop :=
  (∀ src dst : List σ, batchSep f src dst dfl 0 = dst) ∧
  (∀ (src dst : List σ) (n i : ℕ), n ≤ dst.length → i < n →
    (batchSep f src dst dfl n)[i]? = some (f ((src[i]?).getD dfl))) ∧
  (∀ (src dst : List σ) (n i : ℕ), n ≤ i →
    (batchSep f src dst dfl n)[i]? = dst[i]?) ∧
  (∀ buf : List σ, batchInPlace f buf dfl 0 = buf) ∧
  (∀ (buf : List σ) (n i : ℕ), n ≤ buf.length → i < n →
    (batchInPlace f buf dfl n)[i]? = some (f ((buf[i]?).getD dfl))) ∧
  (∀ (buf : List σ) (n i : ℕ), n ≤ i →
    (batchInPlace f buf dfl n)[i]? = buf[i]?)

theorem batchFaithful_all {σ : Type} (f : σ → σ) (dfl : σ) : BatchFaithful f dfl :=
  ⟨fun _ _ => rfl,
   fun src dst n i hn hi => batchSep_get_lt f src dst dfl hn hi,
   fun src dst n i h => batchSep_get_ge f src dst dfl h,
   fun _ => rfl,
   fun buf n i hn hi => batchInPlace_get_lt f buf dfl hn hi,
   fun buf n i h => batchInPlace_get_ge f buf dfl h⟩

theorem revM_revM (m : motor) : revM (revM m) = m := by
  cases m
  simp [revM]

theorem isNormalizedM_revM {m : motor} (h : IsNormalizedM m) :
    IsNormalizedM (revM m) := by
  unfold IsNormalizedM
  rw [revM_revM]
  exact rev_gp_self_of_normalized h

theorem gpRT_scalar (r : rotor) (t : translator) :
    (gpMM (rotorToMotor r) (transToMotor t)).s = r.s := by
  simp only [gpMM, rotorToMotor, transToMotor]
  ring

/-- C5: for every rotor g and every motor g, `~(~g)` equals g exactly (a pure
sign flip, no floating error): reversion only flips the sign of the bivector
lanes, leaving the scalar lane unchanged, so applying it twice is the
identity. -/
theorem claim_C5_reversion_involution :
    (∀ r : rotor, revR (revR r) = r ∧ (revR r).s = r.s ∧ (revR r).b23 = -r.b23 ∧
      (revR r).b31 = -r.b31 ∧ (revR r).b12 = -r.b12) ∧
    (∀ m : motor, revM (revM m) = m) := by
  constructor
  · intro r
    refine ⟨?_, rfl, rfl, rfl, rfl⟩
    cases r
    simp [revR]
  · exact revM_revM

/-- C6: for every angle (radians) and every axis of nonzero Euclidean length,
the convenience constructor `rotor(ang, x, y, z)` produces a normalized
rotor: scalar coordinate `cos(ang/2)`, bivector magnitude `|sin(ang/2)|`, and
`r ~r = 1` exactly in real arithmetic, whether or not the axis was
pre-normalized. -/
theorem claim_C6_ctor_normalized (ang x y z : ℝ) (h : x ^ 2 + y ^ 2 + z ^ 2 ≠ 0) :
    (mkRotor ang x y z).s = Real.cos (ang / 2) ∧
    norm3 (mkRotor ang x y z).b23 (mkRotor ang x y z).b31 (mkRotor ang x y z).b12
      = |Real.sin (ang / 2)| ∧
    IsNormalizedR (mkRotor ang x y z) :=
  ⟨mkRotor_scalar ang x y z, mkRotor_biv_norm h, mkRotor_normalized h⟩

/-- Witness for C6 at angle 0 and axis (1, 0, 0). -/
theorem claim_C6_witness :
    ((1 : ℝ) ^ 2 + 0 ^ 2 + 0 ^ 2 ≠ 0) ∧ IsNormalizedR (mkRotor 0 1 0 0) :=
  ⟨by norm_num, (claim_C6_ctor_normalized 0 1 0 0 (by norm_num)).2.2⟩

/-- C7 (amended): for every compliant reciprocal-square-root approximation
(relative error at most ε = 1.5·2⁻¹²) and every rotor with nonzero
bivector-grade norm, `normalize()` leaves the scalar part of `r ~r` within
ε(2+ε) of 1 — the squared scale propagates roughly twice the documented
instruction error, not the 1.5·2⁻¹² the claim states — and `normalized()`
returns exactly that normalized copy while the receiver is unchanged. -/
theorem claim_C7_normalize_err (f : ℝ → ℝ) (hf : rsqrtSpec f) (r : rotor)
    (hb : 0 < r.b23 ^ 2 + r.b31 ^ 2 + r.b12 ^ 2) :
    |(gpRR (normalizeR f r) (revR (normalizeR f r))).s - 1|
        ≤ 3 / 8192 * (2 + 3 / 8192) ∧
    normalizedR f r = normalizeR f r :=
  ⟨normalizeR_err hf hb, rfl⟩

/-- Witness for C7 with the exact reciprocal square root and r = e23. -/
theorem claim_C7_witness :
    rsqrtSpec (fun x => 1 / Real.sqrt x) ∧
    (0 : ℝ) < (⟨0, 1, 0, 0⟩ : rotor).b23 ^ 2 + (⟨0, 1, 0, 0⟩ : rotor).b31 ^ 2
      + (⟨0, 1, 0, 0⟩ : rotor).b12 ^ 2 ∧
    |(gpRR (normalizeR (fun x => 1 / Real.sqrt x) ⟨0, 1, 0, 0⟩)
        (revR (normalizeR (fun x => 1 / Real.sqrt x) ⟨0, 1, 0, 0⟩))).s - 1|
      ≤ 3 / 8192 * (2 + 3 / 8192) := by
  have hspec : rsqrtSpec (fun x => 1 / Real.sqrt x) := by
    intro x hx
    simp only
    rw [one_div_mul_cancel (Real.sqrt_ne_zero'.mpr hx)]
    norm_num
  exact ⟨hspec, by norm_num,
    (claim_C7_normalize_err _ hspec ⟨0, 1, 0, 0⟩ (by norm_num)).1⟩

/-- C7 counterexample: a reciprocal-square-root approximation meeting the
documented 1.5·2⁻¹² relative-error budget under which `normalize()` leaves
`r ~r` farther than 1.5·2⁻¹² from 1: the claim's bound ignores that the scale
factor enters `r ~r` squared. -/
theorem claim_C7_counterexample :
    rsqrtSpec (fun x => (1 + 3 / 8192) / Real.sqrt x) ∧
    (0 : ℝ) < (⟨0, 1, 0, 0⟩ : rotor).b23 ^ 2 + (⟨0, 1, 0, 0⟩ : rotor).b31 ^ 2
      + (⟨0, 1, 0, 0⟩ : rotor).b12 ^ 2 ∧
    ¬(|(gpRR (normalizeR (fun x => (1 + 3 / 8192) / Real.sqrt x) ⟨0, 1, 0, 0⟩)
        (revR (normalizeR (fun x => (1 + 3 / 8192) / Real.sqrt x) ⟨0, 1, 0, 0⟩))).s - 1|
      ≤ 3 / 8192) := by
  refine ⟨?_, by norm_num, ?_⟩
  · intro x hx
    simp only
    rw [div_mul_cancel₀ _ (Real.sqrt_ne_zero'.mpr hx)]
    rw [show (1 : ℝ) + 3 / 8192 - 1 = 3 / 8192 by ring,
      abs_of_nonneg (by norm_num : (0 : ℝ) ≤ 3 / 8192)]
  · have hone : Real.sqrt ((0 : ℝ) * 0 + 1 * 1 + 0 * 0 + 0 * 0) = 1 := by
      norm_num
    simp only [normalizeR, dpBC, scaleRotor, gpRR, revR]
    rw [hone]
    rw [not_le]
    have e1 : ((1 + 3 / 8192) / 1 * 0 * ((1 + 3 / 8192) / 1 * 0)
        - (1 + 3 / 8192) / 1 * 1 * -((1 + 3 / 8192) / 1 * 1)
        - (1 + 3 / 8192) / 1 * 0 * -((1 + 3 / 8192) / 1 * 0)
        - (1 + 3 / 8192) / 1 * 0 * -((1 + 3 / 8192) / 1 * 0) : ℝ) - 1
        = (1 + 3 / 8192) ^ 2 - 1 := by ring
    calc (3 : ℝ) / 8192 < (1 + 3 / 8192) ^ 2 - 1 := by norm_num
      _ ≤ |(1 + 3 / 8192) ^ 2 - 1| := le_abs_self _
      _ = _ := by rw [e1]

/-- C10: the rotor uniform inverse scale `r / s` multiplies by a hardware
approximate reciprocal of s instead of dividing: for every reciprocal meeting
the 1.5·2⁻¹² relative-error contract and every s ≠ 0, each coordinate differs
from exact division by at most that relative error; and there is a compliant
reciprocal under which `r / s` is not identical to `r * (1/s)` even at
s = 1. -/
theorem claim_C10_div_rcp :
    (∀ f : ℝ → ℝ, rcpSpec f → ∀ (r : rotor) (s : ℝ), s ≠ 0 →
      |(divRotor f r s).s - r.s / s| ≤ 3 / 8192 * |r.s / s| ∧
      |(divRotor f r s).b23 - r.b23 / s| ≤ 3 / 8192 * |r.b23 / s| ∧
      |(divRotor f r s).b31 - r.b31 / s| ≤ 3 / 8192 * |r.b31 / s| ∧
      |(divRotor f r s).b12 - r.b12 / s| ≤ 3 / 8192 * |r.b12 / s|) ∧
    (∃ f : ℝ → ℝ, rcpSpec f ∧
      divRotor f rotorOne 1 ≠ mulRotor rotorOne (1 / 1)) := by
  have comp : ∀ (f : ℝ → ℝ), rcpSpec f → ∀ (s : ℝ), s ≠ 0 → ∀ c : ℝ,
      |f s * c - c / s| ≤ 3 / 8192 * |c / s| := by
    intro f hf s hs c
    have e : f s * c - c / s = (f s * s - 1) * (c / s) := by
      field_simp
      ring
    rw [e, abs_mul]
    exact mul_le_mul_of_nonneg_right (hf s hs) (abs_nonneg _)
  constructor
  · intro f hf r s hs
    exact ⟨comp f hf s hs r.s, comp f hf s hs r.b23,
      comp f hf s hs r.b31, comp f hf s hs r.b12⟩
  · refine ⟨fun x => (1 - 1 / 8192) / x, ?_, ?_⟩
    · intro x hx
      simp only
      rw [div_mul_cancel₀ _ hx]
      rw [show (1 : ℝ) - 1 / 8192 - 1 = -(1 / 8192) by ring, abs_neg,
        abs_of_nonneg (by norm_num : (0 : ℝ) ≤ 1 / 8192)]
      norm_num
    · intro hcontra
      have hcs := congrArg rotor.s hcontra
      simp only [divRotor, mulRotor, scaleRotor, rotorOne] at hcs
      norm_num at hcs

/-- Witness for C10 with the exact reciprocal, the identity rotor and s = 2. -/
theorem claim_C10_witness :
    rcpSpec (fun x => 1 / x) ∧ (2 : ℝ) ≠ 0 ∧
    |(divRotor (fun x => 1 / x) rotorOne 2).s - rotorOne.s / 2|
      ≤ 3 / 8192 * |rotorOne.s / 2| := by
  have hspec : rcpSpec (fun x => 1 / x) := by
    intro x hx
    simp only
    rw [one_div_mul_cancel hx]
    norm_num
  exact ⟨hspec, by norm_num,
    (claim_C10_div_rcp.1 _ hspec rotorOne 2 (by norm_num)).1⟩

/-- C8: for every rotor and each primitive type (plane, line, point,
direction), the batched call operator writes to out[i] exactly the value the
single-entity operator returns at in[i] for every i < count — both with
distinct buffers and in place (in == out) — and a call with count 0 is a
no-op that changes nothing. -/
theorem claim_C8_batch (r : rotor) :
    BatchFaithful (swPoint r) ⟨0, 0, 0, 0⟩ ∧
    BatchFaithful (swPlane r) ⟨0, 0, 0, 0⟩ ∧
    BatchFaithful (swDirection r) ⟨0, 0, 0⟩ ∧
    BatchFaithful (swLine r) ⟨0, 0, 0, 0, 0, 0⟩ :=
  ⟨batchFaithful_all _ _, batchFaithful_all _ _,
   batchFaithful_all _ _, batchFaithful_all _ _⟩

/-- Witness for C8: a one-element point batch, separate buffers, count 1,
slot 0. -/
theorem claim_C8_witness :
    1 ≤ ([(⟨0, 0, 0, 0⟩ : point)] : List point).length ∧ 0 < 1 ∧
    (batchSep (swPoint ⟨1, 1, 0, 0⟩) [⟨1, 2, 3, 4⟩] [⟨0, 0, 0, 0⟩] ⟨0, 0, 0, 0⟩ 1)[0]?
      = some (swPoint ⟨1, 1, 0, 0⟩
          ((([(⟨1, 2, 3, 4⟩ : point)] : List point)[0]?).getD ⟨0, 0, 0, 0⟩)) := by
  refine ⟨by simp, by norm_num, ?_⟩
  exact (claim_C8_batch ⟨1, 1, 0, 0⟩).1.2.1 [⟨1, 2, 3, 4⟩] [⟨0, 0, 0, 0⟩] 1 0
    (by simp) (by norm_num)

/-- C2 (amended): for every normalized rotor whose scalar part is not −1,
`exp(log(r))` equals r component-wise within relative tolerance 1e-3 — in
exact real arithmetic the round trip is an identity; the scalar-part
restriction excludes the 2π rotor −1, where the zero-branch fallback of `log`
loses the sign. -/
theorem claim_C2_rotor_exp_log (r : rotor) (h : IsNormalizedR r)
    (hs : r.s ≠ -1) : rotorApprox 0.001 (expBranch (logRotor r)) r :=
  rotorApprox_of_eq (by norm_num) (rotor_exp_log h hs)

/-- Witness for C2 at the test's rotor: angle π/2, axis (0.3, −3, 1). -/
theorem claim_C2_witness :
    IsNormalizedR (mkRotor (Real.pi / 2) 0.3 (-3) 1) ∧
    (mkRotor (Real.pi / 2) 0.3 (-3) 1).s ≠ -1 ∧
    rotorApprox 0.001 (expBranch (logRotor (mkRotor (Real.pi / 2) 0.3 (-3) 1)))
      (mkRotor (Real.pi / 2) 0.3 (-3) 1) := by
  have hn : IsNormalizedR (mkRotor (Real.pi / 2) 0.3 (-3) 1) :=
    mkRotor_normalized (by norm_num)
  have hs : (mkRotor (Real.pi / 2) 0.3 (-3) 1).s ≠ -1 := by
    rw [mkRotor_scalar, show Real.pi / 2 / 2 = Real.pi / 4 by ring,
      Real.cos_pi_div_four]
    intro heq
    have hpos : (0 : ℝ) < Real.sqrt 2 / 2 := by positivity
    rw [heq] at hpos
    norm_num at hpos
  exact ⟨hn, hs, claim_C2_rotor_exp_log _ hn hs⟩

/-- C2 counterexample: the rotor −1 is normalized, but `log` maps it to the
zero branch (its bivector magnitude is zero), so `exp(log(−1))` is the
identity rotor — off by 2 in the scalar coordinate, far beyond the 1e-3
relative tolerance; the claim fails as stated over all normalized rotors. -/
theorem claim_C2_counterexample :
    IsNormalizedR ⟨-1, 0, 0, 0⟩ ∧
    ¬ rotorApprox 0.001 (expBranch (logRotor ⟨-1, 0, 0, 0⟩)) ⟨-1, 0, 0, 0⟩ := by
  constructor
  · rw [isNormalizedR_iff]
    norm_num
  · have hv : expBranch (logRotor ⟨-1, 0, 0, 0⟩) = ⟨1, 0, 0, 0⟩ := by
      rw [logRotor]
      dsimp only
      rw [if_pos norm3_zero, expBranch]
      dsimp only
      rw [if_pos norm3_zero]
    rw [hv]
    intro hap
    have h1 := hap.1
    dsimp only at h1
    rw [show (1 : ℝ) - (-1) = 2 by norm_num, abs_two,
      show |(-1 : ℝ)| = 1 by rw [abs_neg, abs_one]] at h1
    linarith

/-- C1 (amended): for every normalized motor built as the product of a rotor
and a translator whose scalar part is not −1, `exp(log(m))` equals m on all 8
coordinates within relative tolerance 1e-2 — in exact real arithmetic the
round trip is an identity; the restriction excludes products whose motor is
−(pure translator), where the zero-rotation fallback of `log` loses the
sign. -/
theorem claim_C1_motor_exp_log (r : rotor) (t : translator)
    (h : IsNormalizedM (gpMM (rotorToMotor r) (transToMotor t)))
    (hs : (gpMM (rotorToMotor r) (transToMotor t)).s ≠ -1) :
    motorApprox 0.01
      (expLine (logMotor (gpMM (rotorToMotor r) (transToMotor t))))
      (gpMM (rotorToMotor r) (transToMotor t)) :=
  motorApprox_of_eq (by norm_num) (motor_exp_log h hs)

/-- Witness for C1 at the test's motor: rotor(π/2, (0.3, −3, 1)) composed
with translator(12, (−2, 0.4, 1)). -/
theorem claim_C1_witness :
    IsNormalizedM (gpMM (rotorToMotor (mkRotor (Real.pi / 2) 0.3 (-3) 1))
      (transToMotor (mkTranslator 12 (-2) 0.4 1))) ∧
    (gpMM (rotorToMotor (mkRotor (Real.pi / 2) 0.3 (-3) 1))
      (transToMotor (mkTranslator 12 (-2) 0.4 1))).s ≠ -1 ∧
    motorApprox 0.01
      (expLine (logMotor (gpMM (rotorToMotor (mkRotor (Real.pi / 2) 0.3 (-3) 1))
        (transToMotor (mkTranslator 12 (-2) 0.4 1)))))
      (gpMM (rotorToMotor (mkRotor (Real.pi / 2) 0.3 (-3) 1))
        (transToMotor (mkTranslator 12 (-2) 0.4 1))) := by
  have hn : IsNormalizedM (gpMM (rotorToMotor (mkRotor (Real.pi / 2) 0.3 (-3) 1))
      (transToMotor (mkTranslator 12 (-2) 0.4 1))) :=
    isNormalizedM_gpMM
      (isNormalizedM_rotorToMotor (mkRotor_normalized (by norm_num)))
      (isNormalizedM_transToMotor _)
  have hs : (gpMM (rotorToMotor (mkRotor (Real.pi / 2) 0.3 (-3) 1))
      (transToMotor (mkTranslator 12 (-2) 0.4 1))).s ≠ -1 := by
    rw [gpRT_scalar, mkRotor_scalar, show Real.pi / 2 / 2 = Real.pi / 4 by ring,
      Real.cos_pi_div_four]
    intro heq
    have hpos : (0 : ℝ) < Real.sqrt 2 / 2 := by positivity
    rw [heq] at hpos
    norm_num at hpos
  exact ⟨hn, hs, claim_C1_motor_exp_log _ _ hn hs⟩

/-- C1 counterexample: the 2π rotor (−1, built by the constructor from angle
2π) times the zero-distance translator is a normalized motor equal to −1;
`log` maps it to the zero line, so `exp(log(m))` is the identity motor —
off by 2 in the scalar coordinate, far outside the 1e-2 tolerance; the claim
fails as stated over all normalized rotor·translator products. -/
theorem claim_C1_counterexample :
    IsNormalizedM (gpMM (rotorToMotor (mkRotor (2 * Real.pi) 0 0 1))
      (transToMotor (mkTranslator 0 1 0 0))) ∧
    ¬ motorApprox 0.01
      (expLine (logMotor (gpMM (rotorToMotor (mkRotor (2 * Real.pi) 0 0 1))
        (transToMotor (mkTranslator 0 1 0 0)))))
      (gpMM (rotorToMotor (mkRotor (2 * Real.pi) 0 0 1))
        (transToMotor (mkTranslator 0 1 0 0))) := by
  have hr : mkRotor (2 * Real.pi) 0 0 1 = ⟨-1, 0, 0, 0⟩ := by
    unfold mkRotor
    rw [show (0.5 : ℝ) * (2 * Real.pi) = Real.pi by ring, Real.cos_pi,
      Real.sin_pi]
    simp only [rotor.mk.injEq]
    norm_num
  have ht : mkTranslator 0 1 0 0 = ⟨0, 0, 0⟩ := by
    unfold mkTranslator
    simp only [translator.mk.injEq]
    norm_num
  rw [hr, ht]
  have hm : gpMM (rotorToMotor ⟨-1, 0, 0, 0⟩) (transToMotor ⟨0, 0, 0⟩)
      = ⟨-1, 0, 0, 0, 0, 0, 0, 0⟩ := by
    simp only [rotorToMotor, transToMotor, gpMM, motor.mk.injEq]
    norm_num
  rw [hm]
  constructor
  · rw [isNormalizedM_iff]
    norm_num
  · have hv : expLine (logMotor (⟨-1, 0, 0, 0, 0, 0, 0, 0⟩ : motor)) = motorOne := by
      rw [logMotor]
      dsimp only
      rw [if_pos norm3_zero, expLine]
      dsimp only
      rw [if_pos norm3_zero]
      rfl
    rw [hv]
    intro hap
    have h1 := hap.1
    simp only [motorOne] at h1
    rw [show (1 : ℝ) - (-1) = 2 by norm_num, abs_two,
      show |(-1 : ℝ)| = 1 by rw [abs_neg, abs_one]] at h1
    linarith

/-- C4 (amended): for every compliant reciprocal-square-root approximation
and every normalized rotor with scalar part ≠ −1, `sqrt(r) * sqrt(r)` equals
r component-wise within relative tolerance 1e-3 (the rsqrt error propagates
as ε(2+ε) ≈ 7.3·10⁻⁴ < 1e-3); and for every normalized motor built as
rotor·translator with scalar part ≠ −1, `sqrt(m) * sqrt(m)` equals m on all 8
coordinates within 1e-2 (exactly, under the exact two-term motor
normalization).  The restriction excludes the scalar −1, where `1 + r`
vanishes and the square root degenerates. -/
theorem claim_C4_sqrt :
    (∀ f : ℝ → ℝ, rsqrtSpec f → ∀ r : rotor, IsNormalizedR r → r.s ≠ -1 →
      rotorApprox 0.001 (gpRR (sqrtRotor f r) (sqrtRotor f r)) r) ∧
    (∀ (r : rotor) (t : translator),
      IsNormalizedM (gpMM (rotorToMotor r) (transToMotor t)) →
      (gpMM (rotorToMotor r) (transToMotor t)).s ≠ -1 →
      motorApprox 0.01
        (gpMM (sqrtMotor (gpMM (rotorToMotor r) (transToMotor t)))
          (sqrtMotor (gpMM (rotorToMotor r) (transToMotor t))))
        (gpMM (rotorToMotor r) (transToMotor t))) := by
  constructor
  · intro f hf r h hs
    exact rotorApprox_mono (by norm_num) (sqrtRotor_sq hf h hs)
  · intro r t h hs
    exact motorApprox_of_eq (by norm_num) (sqrtMotor_sq h hs)

/-- Witness for C4 with the exact reciprocal square root, the identity rotor
and the identity translator. -/
theorem claim_C4_witness :
    rsqrtSpec (fun x => 1 / Real.sqrt x) ∧ IsNormalizedR rotorOne ∧
    rotorApprox 0.001
      (gpRR (sqrtRotor (fun x => 1 / Real.sqrt x) rotorOne)
        (sqrtRotor (fun x => 1 / Real.sqrt x) rotorOne)) rotorOne ∧
    IsNormalizedM (gpMM (rotorToMotor rotorOne) (transToMotor ⟨0, 0, 0⟩)) ∧
    motorApprox 0.01
      (gpMM (sqrtMotor (gpMM (rotorToMotor rotorOne) (transToMotor ⟨0, 0, 0⟩)))
        (sqrtMotor (gpMM (rotorToMotor rotorOne) (transToMotor ⟨0, 0, 0⟩))))
      (gpMM (rotorToMotor rotorOne) (transToMotor ⟨0, 0, 0⟩)) := by
  have hspec : rsqrtSpec (fun x => 1 / Real.sqrt x) := by
    intro x hx
    simp only
    rw [one_div_mul_cancel (Real.sqrt_ne_zero'.mpr hx)]
    norm_num
  have hone : IsNormalizedR rotorOne := by
    rw [isNormalizedR_iff]
    norm_num [rotorOne]
  have hsone : rotorOne.s ≠ -1 := by
    norm_num [rotorOne]
  have hmn : IsNormalizedM (gpMM (rotorToMotor rotorOne) (transToMotor ⟨0, 0, 0⟩)) :=
    isNormalizedM_gpMM (isNormalizedM_rotorToMotor hone)
      (isNormalizedM_transToMotor _)
  have hms : (gpMM (rotorToMotor rotorOne) (transToMotor ⟨0, 0, 0⟩)).s ≠ -1 := by
    rw [gpRT_scalar]
    exact hsone
  exact ⟨hspec, hone, claim_C4_sqrt.1 _ hspec rotorOne hone hsone, hmn,
    claim_C4_sqrt.2 rotorOne ⟨0, 0, 0⟩ hmn hms⟩

/-- C4 counterexample: a compliant reciprocal-square-root approximation
(exact where defined, zero at the singular input 0) under which the rotor −1
— normalized — yields `sqrt(−1) = 0`, so `sqrt(−1)²` is the zero rotor, off
by 1 in the scalar coordinate: the claim fails as stated over all normalized
rotors, at the degenerate 180°-input the spec itself flags for `sqrt`. -/
theorem claim_C4_counterexample :
    rsqrtSpec (fun x => if x ≤ 0 then 0 else 1 / Real.sqrt x) ∧
    IsNormalizedR ⟨-1, 0, 0, 0⟩ ∧
    ¬ rotorApprox 0.001
      (gpRR (sqrtRotor (fun x => if x ≤ 0 then 0 else 1 / Real.sqrt x) ⟨-1, 0, 0, 0⟩)
        (sqrtRotor (fun x => if x ≤ 0 then 0 else 1 / Real.sqrt x) ⟨-1, 0, 0, 0⟩))
      ⟨-1, 0, 0, 0⟩ := by
  refine ⟨?_, by rw [isNormalizedR_iff]; norm_num, ?_⟩
  · intro x hx
    simp only
    rw [if_neg (not_le.mpr hx), one_div_mul_cancel (Real.sqrt_ne_zero'.mpr hx)]
    norm_num
  · have hv : sqrtRotor (fun x => if x ≤ 0 then 0 else 1 / Real.sqrt x)
        ⟨-1, 0, 0, 0⟩ = ⟨0, 0, 0, 0⟩ := by
      unfold sqrtRotor normalizeR plusOneR dpBC scaleRotor
      simp only [rotor.mk.injEq]
      norm_num
    rw [hv]
    intro hap
    have h1 := hap.1
    simp only [gpRR] at h1
    rw [show (0 : ℝ) * 0 - 0 * 0 - 0 * 0 - 0 * 0 - -1 = 1 by norm_num,
      abs_one, show |(-1 : ℝ)| = 1 by rw [abs_neg, abs_one]] at h1
    linarith

/-- C3 (amended): for every normalized motor m with scalar part ≠ −1, line
l = log(m) and integer k > 0, the k-fold product of `exp(l / k)` equals m on
all 8 coordinates within relative tolerance 1e-2 (exactly, in real
arithmetic); and for normalized motors m1, m2 whose motion `m2 * ~m1` has
scalar part ≠ −1, applying the quarter-step motor `exp(log(m2 * ~m1) / 4)`
four times to m1 reproduces m2.  The restriction excludes motors with scalar
part −1, where the zero-rotation fallback of `log` loses the sign. -/
theorem claim_C3_interp :
    (∀ (m : motor) (k : ℕ), IsNormalizedM m → m.s ≠ -1 → k ≠ 0 →
      motorApprox 0.01 (powM (expLine (divLine (logMotor m) (k : ℝ))) k) m) ∧
    (∀ m1 m2 : motor, IsNormalizedM m1 → IsNormalizedM m2 →
      (gpMM m2 (revM m1)).s ≠ -1 →
      gpMM (powM (expLine (divLine (logMotor (gpMM m2 (revM m1)))
        ((4 : ℕ) : ℝ))) 4) m1 = m2) := by
  constructor
  · intro m k h hs hk
    exact motorApprox_of_eq (by norm_num) (powM_interp h hs k hk)
  · intro m1 m2 h1 h2 hs
    have hmot : IsNormalizedM (gpMM m2 (revM m1)) :=
      isNormalizedM_gpMM h2 (isNormalizedM_revM h1)
    rw [powM_interp hmot hs 4 (by norm_num), gpMM_assoc,
      rev_gp_self_of_normalized h1, gpMM_one_right]

/-- Witness for C3: the slerp instance at the test's motor with k = 3, and
the blend instance from the identity motor to that motor. -/
theorem claim_C3_witness :
    IsNormalizedM (gpMM (rotorToMotor (mkRotor (Real.pi / 2) 0.3 (-3) 1))
      (transToMotor (mkTranslator 12 (-2) 0.4 1))) ∧
    (gpMM (rotorToMotor (mkRotor (Real.pi / 2) 0.3 (-3) 1))
      (transToMotor (mkTranslator 12 (-2) 0.4 1))).s ≠ -1 ∧
    (3 : ℕ) ≠ 0 ∧
    motorApprox 0.01
      (powM (expLine (divLine (logMotor
        (gpMM (rotorToMotor (mkRotor (Real.pi / 2) 0.3 (-3) 1))
          (transToMotor (mkTranslator 12 (-2) 0.4 1)))) ((3 : ℕ) : ℝ))) 3)
      (gpMM (rotorToMotor (mkRotor (Real.pi / 2) 0.3 (-3) 1))
        (transToMotor (mkTranslator 12 (-2) 0.4 1))) ∧
    gpMM (powM (expLine (divLine (logMotor
        (gpMM (gpMM (rotorToMotor (mkRotor (Real.pi / 2) 0.3 (-3) 1))
          (transToMotor (mkTranslator 12 (-2) 0.4 1))) (revM motorOne)))
        ((4 : ℕ) : ℝ))) 4) motorOne
      = gpMM (rotorToMotor (mkRotor (Real.pi / 2) 0.3 (-3) 1))
          (transToMotor (mkTranslator 12 (-2) 0.4 1)) := by
  have hn : IsNormalizedM (gpMM (rotorToMotor (mkRotor (Real.pi / 2) 0.3 (-3) 1))
      (transToMotor (mkTranslator 12 (-2) 0.4 1))) :=
    isNormalizedM_gpMM
      (isNormalizedM_rotorToMotor (mkRotor_normalized (by norm_num)))
      (isNormalizedM_transToMotor _)
  have hs : (gpMM (rotorToMotor (mkRotor (Real.pi / 2) 0.3 (-3) 1))
      (transToMotor (mkTranslator 12 (-2) 0.4 1))).s ≠ -1 := by
    rw [gpRT_scalar, mkRotor_scalar, show Real.pi / 2 / 2 = Real.pi / 4 by ring,
      Real.cos_pi_div_four]
    intro heq
    have hpos : (0 : ℝ) < Real.sqrt 2 / 2 := by positivity
    rw [heq] at hpos
    norm_num at hpos
  have honeM : IsNormalizedM motorOne := by
    rw [isNormalizedM_iff]
    norm_num [motorOne]
  have hrev1 : revM motorOne = motorOne := by
    simp [revM, motorOne]
  have hs2 : (gpMM (gpMM (rotorToMotor (mkRotor (Real.pi / 2) 0.3 (-3) 1))
      (transToMotor (mkTranslator 12 (-2) 0.4 1))) (revM motorOne)).s ≠ -1 := by
    rw [hrev1, gpMM_one_right]
    exact hs
  refine ⟨hn, hs, by norm_num, claim_C3_interp.1 _ 3 hn hs (by norm_num), ?_⟩
  have hb := claim_C3_interp.2 motorOne
    (gpMM (rotorToMotor (mkRotor (Real.pi / 2) 0.3 (-3) 1))
      (transToMotor (mkTranslator 12 (-2) 0.4 1))) honeM hn hs2
  rw [hb]

/-- C3 counterexample: the motor −1 is normalized, but its log is the zero
line, so `(exp(log(m)/3))³` is the identity motor — off by 2 in the scalar
coordinate, far outside the 1e-2 relative tolerance; the claim fails as
stated over all normalized motors and k > 0. -/
theorem claim_C3_counterexample :
    IsNormalizedM (⟨-1, 0, 0, 0, 0, 0, 0, 0⟩ : motor) ∧
    ¬ motorApprox 0.01
      (powM (expLine (divLine (logMotor ⟨-1, 0, 0, 0, 0, 0, 0, 0⟩)
        ((3 : ℕ) : ℝ))) 3)
      ⟨-1, 0, 0, 0, 0, 0, 0, 0⟩ := by
  constructor
  · rw [isNormalizedM_iff]
    norm_num
  · have hl : logMotor (⟨-1, 0, 0, 0, 0, 0, 0, 0⟩ : motor) = ⟨0, 0, 0, 0, 0, 0⟩ := by
      rw [logMotor]
      dsimp only
      rw [if_pos norm3_zero]
    have hd : divLine (⟨0, 0, 0, 0, 0, 0⟩ : line) ((3 : ℕ) : ℝ) = ⟨0, 0, 0, 0, 0, 0⟩ := by
      unfold divLine
      simp only [line.mk.injEq]
      norm_num
    have he : expLine (⟨0, 0, 0, 0, 0, 0⟩ : line) = motorOne := by
      rw [expLine]
      dsimp only
      rw [if_pos norm3_zero]
      rfl
    have hp : powM motorOne 3 = motorOne := by
      show gpMM (gpMM (gpMM (powM motorOne 0) motorOne) motorOne) motorOne = motorOne
      rw [show powM motorOne 0 = motorOne from rfl, gpMM_one_right, gpMM_one_right,
        gpMM_one_right]
    rw [hl, hd, he, hp]
    intro hap
    have h1 := hap.1
    simp only [motorOne] at h1
    rw [show (1 : ℝ) - (-1) = 2 by norm_num, abs_two,
      show |(-1 : ℝ)| = 1 by rw [abs_neg, abs_one]] at h1
    linarith
